import Mathlib

/-!
Verification of the icfs in-memory FUSE filesystem (`src/main.rs`).

The development shallowly embeds the Rust program:

* `KVList` models `std::collections::HashMap` as an association list
  (`insert` replaces the value in place when the key is present and
  appends otherwise, `remove` deletes the unique binding, `get` finds
  the binding); the inode table keeps its keys duplicate-free, so the
  association list's `length` agrees with `HashMap::len`.
* `FileStorageEntry`, `FileStorage`, `FileStoragePath` mirror the
  corresponding Rust types (`OsString` becomes `String`, bytes become
  `Nat`).
* `ICFS` mirrors the adapter struct; each `fuser::Filesystem` callback
  becomes a pure function from a state and arguments to a new state and
  a reply.  A reply of type `Option (Except Errno R)` is `none` exactly
  when the Rust code panics (`unwrap` on `None`, or the explicit
  `panic!("oob write")`), `some (.error e)` when it calls
  `reply.error(e)`, and `some (.ok r)` when it replies successfully.
  Rust's in-place mutation through `lookup_mut` is modelled by reading
  the entry at a path and writing the modified entry back at the same
  path (`FileStorage.setAt`).
-/

/-! ## Association lists modelling `HashMap` -/

namespace KVList

/-- The keys of the map, in storage order. -/
def keys {α β : Type} (l : List (α × β)) : List α := l.map Prod.fst

@[simp] theorem keys_nil {α β : Type} : keys ([] : List (α × β)) = [] := rfl

@[simp] theorem keys_cons {α β : Type} (a : α) (b : β) (t : List (α × β)) :
    keys ((a, b) :: t) = a :: keys t := rfl

variable {α β : Type} [DecidableEq α]

/-- Models `HashMap::get`: the value bound to `k`, if any. -/
def get (k : α) : List (α × β) → Option β
  | [] => none
  | (a, b) :: t => if a = k then some b else get k t

/-- Models `HashMap::insert`: replace the binding of `k` in place, or append it. -/
def insert (k : α) (v : β) : List (α × β) → List (α × β)
  | [] => [(k, v)]
  | (a, b) :: t => if a = k then (k, v) :: t else (a, b) :: insert k v t

/-- Models `HashMap::remove`: delete the binding of `k`, if any. -/
def remove (k : α) : List (α × β) → List (α × β)
  | [] => []
  | (a, b) :: t => if a = k then t else (a, b) :: remove k t

/-- Models `HashMap::contains_key`. -/
def containsKey (k : α) (l : List (α × β)) : Bool := (get k l).isSome

theorem get_insert_self (k : α) (v : β) (l : List (α × β)) :
    get k (insert k v l) = some v := by
  induction l with
  | nil => simp [insert, get]
  | cons hd t ih =>
    obtain ⟨a, b⟩ := hd
    by_cases h : a = k <;> simp [insert, get, h, ih]

theorem get_insert_ne {k k' : α} (h : k' ≠ k) (v : β) (l : List (α × β)) :
    get k' (insert k v l) = get k' l := by
  induction l with
  | nil => simp [insert, get, Ne.symm h]
  | cons hd t ih =>
    obtain ⟨a, b⟩ := hd
    by_cases ha : a = k
    · subst ha
      simp [insert, get, Ne.symm h]
    · simp only [insert, if_neg ha]
      by_cases ha' : a = k'
      · simp [get, ha']
      · simp [get, ha', ih]

theorem get_remove_ne {k k' : α} (h : k' ≠ k) (l : List (α × β)) :
    get k' (remove k l) = get k' l := by
  induction l with
  | nil => simp [remove]
  | cons hd t ih =>
    obtain ⟨a, b⟩ := hd
    by_cases ha : a = k
    · subst ha
      simp [remove, get, Ne.symm h]
    · simp only [remove, if_neg ha]
      by_cases ha' : a = k'
      · simp [get, ha']
      · simp [get, ha', ih]

theorem get_eq_none_iff {k : α} {l : List (α × β)} :
    get k l = none ↔ k ∉ keys l := by
  induction l with
  | nil => simp [get]
  | cons hd t ih =>
    obtain ⟨a, b⟩ := hd
    rw [keys_cons, List.mem_cons]
    by_cases ha : a = k
    · subst ha
      simp [get]
    · simp [get, ha, Ne.symm ha, ih]

theorem get_eq_none_of_not_mem {k : α} {l : List (α × β)} (h : k ∉ keys l) :
    get k l = none :=
  get_eq_none_iff.mpr h

theorem mem_keys_of_get {k : α} {v : β} {l : List (α × β)} (h : get k l = some v) :
    k ∈ keys l := by
  by_contra hk
  rw [get_eq_none_iff.mpr hk] at h
  exact Option.noConfusion h

theorem keys_insert_not_mem {k : α} {l : List (α × β)} (h : get k l = none) (v : β) :
    keys (insert k v l) = keys l ++ [k] := by
  induction l with
  | nil => simp [insert]
  | cons hd t ih =>
    obtain ⟨a, b⟩ := hd
    by_cases ha : a = k
    · simp [get, ha] at h
    · simp only [get, if_neg ha] at h
      simp only [insert, if_neg ha]
      rw [keys_cons, keys_cons, ih h, List.cons_append]

theorem keys_insert_mem {k : α} {v' : β} {l : List (α × β)} (h : get k l = some v') (v : β) :
    keys (insert k v l) = keys l := by
  induction l with
  | nil => simp [get] at h
  | cons hd t ih =>
    obtain ⟨a, b⟩ := hd
    by_cases ha : a = k
    · simp only [insert, if_pos ha]
      rw [keys_cons, keys_cons, ha]
    · simp only [get, if_neg ha] at h
      simp only [insert, if_neg ha]
      rw [keys_cons, keys_cons, ih h]

theorem length_insert_not_mem {k : α} {l : List (α × β)} (h : get k l = none) (v : β) :
    (insert k v l).length = l.length + 1 := by
  have h1 : (keys (insert k v l)).length = (keys l ++ [k]).length := by
    rw [keys_insert_not_mem h]
  simpa [keys] using h1

theorem length_insert_mem {k : α} {v' : β} {l : List (α × β)} (h : get k l = some v') (v : β) :
    (insert k v l).length = l.length := by
  have h1 : (keys (insert k v l)).length = (keys l).length := by
    rw [keys_insert_mem h]
  simpa [keys] using h1

theorem remove_sublist (k : α) (l : List (α × β)) : (remove k l).Sublist l := by
  induction l with
  | nil => simp [remove]
  | cons hd t ih =>
    obtain ⟨a, b⟩ := hd
    by_cases ha : a = k
    · simp only [remove, if_pos ha]
      exact List.sublist_cons_self _ _
    · simp only [remove, if_neg ha]
      exact ih.cons₂ _

theorem keys_remove_sublist (k : α) (l : List (α × β)) :
    (keys (remove k l)).Sublist (keys l) :=
  (remove_sublist k l).map Prod.fst

theorem keys_remove_nodup {l : List (α × β)} (h : (keys l).Nodup) (k : α) :
    (keys (remove k l)).Nodup :=
  h.sublist (keys_remove_sublist k l)

theorem get_remove_self {k : α} {l : List (α × β)} (h : (keys l).Nodup) :
    get k (remove k l) = none := by
  induction l with
  | nil => simp [remove, get]
  | cons hd t ih =>
    obtain ⟨a, b⟩ := hd
    rw [keys_cons, List.nodup_cons] at h
    by_cases ha : a = k
    · subst ha
      simp only [remove, if_pos rfl]
      exact get_eq_none_of_not_mem h.1
    · simp only [remove, if_neg ha, get, if_neg ha]
      exact ih h.2

theorem length_remove_mem {k : α} {v : β} {l : List (α × β)} (h : get k l = some v) :
    (remove k l).length + 1 = l.length := by
  induction l with
  | nil => simp [get] at h
  | cons hd t ih =>
    obtain ⟨a, b⟩ := hd
    by_cases ha : a = k
    · simp [remove, ha]
    · simp only [get, if_neg ha] at h
      simp only [remove, if_neg ha, List.length_cons]
      rw [← ih h]

theorem isSome_get_of_mem_keys {k : α} {l : List (α × β)} (h : k ∈ keys l) :
    (get k l).isSome := by
  cases hg : get k l with
  | none => exact absurd h (get_eq_none_iff.mp hg)
  | some v => simp

theorem insert_get_self {k : α} {v : β} {l : List (α × β)} (h : get k l = some v) :
    insert k v l = l := by
  induction l with
  | nil => simp [get] at h
  | cons hd t ih =>
    obtain ⟨a, b⟩ := hd
    by_cases ha : a = k
    · subst ha
      simp only [get, if_pos rfl] at h
      simp at h
      simp [insert, h]
    · simp only [get, if_neg ha] at h
      simp only [insert, if_neg ha, ih h]

theorem remove_not_mem {k : α} {l : List (α × β)} (h : get k l = none) :
    remove k l = l := by
  induction l with
  | nil => simp [remove]
  | cons hd t ih =>
    obtain ⟨a, b⟩ := hd
    by_cases ha : a = k
    · simp [get, ha] at h
    · simp only [get, if_neg ha] at h
      simp only [remove, if_neg ha, ih h]

theorem get_mem {k : α} {v : β} {l : List (α × β)} (h : get k l = some v) :
    (k, v) ∈ l := by
  induction l with
  | nil => simp [get] at h
  | cons hd t ih =>
    obtain ⟨a, b⟩ := hd
    by_cases ha : a = k
    · subst ha
      simp [get] at h
      simp [h]
    · simp only [get, if_neg ha] at h
      exact List.mem_cons_of_mem _ (ih h)

theorem mem_insert {k : α} {v : β} {l : List (α × β)} {p : α × β}
    (h : p ∈ insert k v l) : p ∈ l ∨ p = (k, v) := by
  induction l with
  | nil =>
    simp only [insert, List.mem_singleton] at h
    exact Or.inr h
  | cons hd t ih =>
    obtain ⟨a, b⟩ := hd
    by_cases ha : a = k
    · simp only [insert, if_pos ha, List.mem_cons] at h
      rcases h with h | h
      · exact Or.inr h
      · exact Or.inl (List.mem_cons_of_mem _ h)
    · simp only [insert, if_neg ha, List.mem_cons] at h
      rcases h with h | h
      · exact Or.inl (h ▸ List.mem_cons_self _ _)
      · rcases ih h with h' | h'
        · exact Or.inl (List.mem_cons_of_mem _ h')
        · exact Or.inr h'

theorem mem_remove {k : α} {l : List (α × β)} {p : α × β}
    (h : p ∈ remove k l) : p ∈ l :=
  (remove_sublist k l).mem h

end KVList

/-! ## The hierarchical store (`FileStorage` in `src/main.rs`) -/

/-- Models `FileStoragePath`: the `parts` of the Rust struct, a sequence of
path components from the root (`OsString` becomes `String`). -/
abbrev FileStoragePath := List String

/-- Models `FileStoragePath::root()`: the empty component sequence. -/
def FileStoragePath.root : FileStoragePath := []

/-- Models `FileStoragePath::with_pushed`: append one component. -/
def FileStoragePath.with_pushed (p : FileStoragePath) (next : String) : FileStoragePath :=
  p ++ [next]

/-- Models `FileStoragePath::with_popped`: drop the last component. -/
def FileStoragePath.with_popped (p : FileStoragePath) : FileStoragePath :=
  p.dropLast

/-- Models `FileStorageEntry`: a file holding a byte sequence, or a directory
holding a name-to-entry map (bytes become `Nat`). -/
inductive FileStorageEntry where
  | file (content : List Nat)
  | directory (children : List (String × FileStorageEntry))

/-- The walk of `FileStorage::lookup` from a given entry: follow each
component; fail when a component is absent or a file is hit early. -/
def FileStorageEntry.lookupPath : FileStorageEntry → FileStoragePath → Option FileStorageEntry
  | e, [] => some e
  | .file _, _ :: _ => none
  | .directory children, part :: rest =>
    match KVList.get part children with
    | none => none
    | some entry => FileStorageEntry.lookupPath entry rest

/-- Write-back counterpart of the walk of `FileStorage::lookup_mut`:
replace the entry at `path` by `newEntry` (identity when the walk
fails, which the adapter never relies on). -/
def FileStorageEntry.replacedAt : FileStorageEntry → FileStoragePath → FileStorageEntry → FileStorageEntry
  | _, [], newEntry => newEntry
  | .file c, _ :: _, _ => .file c
  | .directory children, part :: rest, newEntry =>
    match KVList.get part children with
    | none => .directory children
    | some entry =>
      .directory (KVList.insert part (FileStorageEntry.replacedAt entry rest newEntry) children)

/-- Every directory in the subtree has duplicate-free child names
(`HashMap` keys are unique). -/
inductive EntryWF : FileStorageEntry → Prop where
  | file (c : List Nat) : EntryWF (.file c)
  | directory (children : List (String × FileStorageEntry))
      (hkeys : (KVList.keys children).Nodup)
      (hvals : ∀ p ∈ children, EntryWF p.2) :
      EntryWF (.directory children)

/-- Models `struct FileStorage`, owner of the root entry. -/
structure FileStorage where
  root : FileStorageEntry

/-- Models `FileStorage::new()`: an empty root directory. -/
def FileStorage.new : FileStorage := ⟨.directory []⟩

/-- Models `FileStorage::lookup`. -/
def FileStorage.lookup (fs : FileStorage) (path : FileStoragePath) : Option FileStorageEntry :=
  fs.root.lookupPath path

/-- Write the entry at `path` (models mutation through `lookup_mut`). -/
def FileStorage.setAt (fs : FileStorage) (path : FileStoragePath) (e : FileStorageEntry) : FileStorage :=
  ⟨fs.root.replacedAt path e⟩

namespace FileStorageEntry

theorem lookupPath_append (e : FileStorageEntry) (p q : FileStoragePath) :
    e.lookupPath (p ++ q) = (e.lookupPath p).bind (fun x => x.lookupPath q) := by
  induction p generalizing e with
  | nil => simp [lookupPath]
  | cons part rest ih =>
    cases e with
    | file c => simp [lookupPath]
    | directory children =>
      simp only [List.cons_append, lookupPath]
      cases KVList.get part children with
      | none => simp
      | some entry => exact ih entry

theorem wf_lookupPath {e x : FileStorageEntry} {p : FileStoragePath}
    (hwf : EntryWF e) (h : e.lookupPath p = some x) : EntryWF x := by
  induction p generalizing e with
  | nil =>
    simp [lookupPath] at h
    exact h ▸ hwf
  | cons part rest ih =>
    cases e with
    | file c => simp [lookupPath] at h
    | directory children =>
      simp only [lookupPath] at h
      cases hg : KVList.get part children with
      | none => rw [hg] at h; exact Option.noConfusion h
      | some entry =>
        rw [hg] at h
        cases hwf with
        | directory _ hkeys hvals =>
          exact ih (hvals _ (KVList.get_mem hg)) h

theorem wf_replacedAt {e newEntry : FileStorageEntry} {p : FileStoragePath}
    (hwf : EntryWF e) (hnew : EntryWF newEntry) : EntryWF (e.replacedAt p newEntry) := by
  induction p generalizing e with
  | nil => cases e <;> exact hnew
  | cons part rest ih =>
    cases e with
    | file c => exact hwf
    | directory children =>
      simp only [replacedAt]
      cases hg : KVList.get part children with
      | none => exact hwf
      | some entry =>
        cases hwf with
        | directory _ hkeys hvals =>
          have hwfentry : EntryWF (entry.replacedAt rest newEntry) :=
            ih (hvals _ (KVList.get_mem hg))
          refine EntryWF.directory _ ?_ ?_
          · rwa [KVList.keys_insert_mem hg]
          · intro q hq
            rcases KVList.mem_insert hq with hq' | hq'
            · exact hvals _ hq'
            · rw [hq']
              exact hwfentry

theorem replacedAt_lookupPath_self {e x : FileStorageEntry} {p : FileStoragePath}
    (h : e.lookupPath p = some x) : e.replacedAt p x = e := by
  induction p generalizing e with
  | nil =>
    simp [lookupPath] at h
    simp [replacedAt, h]
  | cons part rest ih =>
    cases e with
    | file c => simp [lookupPath] at h
    | directory children =>
      simp only [lookupPath] at h
      cases hg : KVList.get part children with
      | none => simp only [replacedAt, hg]
      | some entry =>
        rw [hg] at h
        simp only [replacedAt, hg]
        rw [ih h, KVList.insert_get_self hg]

theorem lookupPath_replacedAt {e x newEntry : FileStorageEntry} {p : FileStoragePath}
    (h : e.lookupPath p = some x) :
    (e.replacedAt p newEntry).lookupPath p = some newEntry := by
  induction p generalizing e with
  | nil => simp [lookupPath, replacedAt]
  | cons part rest ih =>
    cases e with
    | file c => simp [lookupPath] at h
    | directory children =>
      simp only [lookupPath] at h
      cases hg : KVList.get part children with
      | none => rw [hg] at h; exact Option.noConfusion h
      | some entry =>
        rw [hg] at h
        simp only [replacedAt, hg, lookupPath, KVList.get_insert_self]
        exact ih h

end FileStorageEntry

/-! ## The identity mapper and protocol adapter (`ICFS` in `src/main.rs`) -/

/-- The symbolic error codes (`libc` constants) the adapter replies with. -/
inductive Errno where
  | ENOENT
  | ENOTDIR
  | EEXIST
  | EISDIR
deriving DecidableEq, Repr

/-- Models `fuser::FileType`, restricted to the two variants the code uses. -/
inductive FileType where
  | regularFile
  | directory
deriving DecidableEq, Repr

/-- Models `fuser::FileAttr` with the fields the code fills in; the four
timestamps (all `UNIX_EPOCH`) are represented as `0`. -/
structure FileAttr where
  ino : Nat
  size : Nat
  blocks : Nat
  atime : Nat
  mtime : Nat
  ctime : Nat
  crtime : Nat
  kind : FileType
  perm : Nat
  nlink : Nat
  uid : Nat
  gid : Nat
  rdev : Nat
  blksize : Nat
  flags : Nat
deriving DecidableEq, Repr

/-- One `reply.add(ino, offset, kind, name)` record of `readdir`. -/
structure DirEntry where
  ino : Nat
  position : Nat
  kind : FileType
  name : String
deriving DecidableEq, Repr

/-- The adapter state (`struct ICFS`): the store plus the two inode-table
directions and the set of inode numbers available for reuse
(`HashSet<u64>` as a duplicate-free list; `iter().next()` is its head). -/
structure ICFS where
  files : FileStorage
  inode_to_file : List (Nat × FileStoragePath)
  file_to_inode : List (FileStoragePath × Nat)
  unused_inodes : List Nat

/-- Models `ICFS::create_inode`: return the existing binding of `path`, or bind
it to a recycled inode number (any element of the reuse set) or, when
none is available, to `inode_to_file.len() + 1`. -/
def ICFS.create_inode (s : ICFS) (path : FileStoragePath) : ICFS × Nat :=
  match KVList.get path s.file_to_inode with
  | some inode => (s, inode)
  | none =>
    match s.unused_inodes with
    | inode :: _ =>
      ({ s with
          unused_inodes := s.unused_inodes.erase inode,
          file_to_inode := KVList.insert path inode s.file_to_inode,
          inode_to_file := KVList.insert inode path s.inode_to_file }, inode)
    | [] =>
      let inode := s.inode_to_file.length + 1
      ({ s with
          file_to_inode := KVList.insert path inode s.file_to_inode,
          inode_to_file := KVList.insert inode path s.inode_to_file }, inode)

/-- Models `ICFS::remove_inode`: unbind the inode from both directions and add
it to the reuse set; a no-op (with a logged complaint) when unbound. -/
def ICFS.remove_inode (s : ICFS) (inode : Nat) : ICFS :=
  match KVList.get inode s.inode_to_file with
  | none => s
  | some path =>
    { s with
        inode_to_file := KVList.remove inode s.inode_to_file,
        file_to_inode := KVList.remove path s.file_to_inode,
        unused_inodes :=
          if inode ∈ s.unused_inodes then s.unused_inodes else inode :: s.unused_inodes }

/-- Models `ICFS::new()`: empty store, with the root path bound eagerly. -/
def ICFS.new : ICFS :=
  (ICFS.create_inode
    { files := FileStorage.new,
      inode_to_file := [],
      file_to_inode := [],
      unused_inodes := [] }
    FileStoragePath.root).1

/-- Models `ICFS::get_entry`: resolve the inode to its path, then the path in
the store. -/
def ICFS.get_entry (s : ICFS) (inode : Nat) : Option FileStorageEntry :=
  match KVList.get inode s.inode_to_file with
  | none => none
  | some path => s.files.lookup path

/-- Models `ICFS::get_inode_attrs`: the attributes of a bound, resolving inode;
`none` models the `unwrap` panic on a failed `get_entry`. -/
def ICFS.get_inode_attrs (s : ICFS) (inode : Nat) : Option FileAttr :=
  match s.get_entry inode with
  | none => none
  | some entry =>
    some
      { ino := inode,
        size :=
          match entry with
          | .file data => data.length
          | .directory _ => 0,
        blocks := 0, atime := 0, mtime := 0, ctime := 0, crtime := 0,
        kind :=
          match entry with
          | .file _ => FileType.regularFile
          | .directory _ => FileType.directory,
        perm := 0o777, nlink := 0, uid := 0, gid := 0, rdev := 0,
        blksize := 0, flags := 0 }

/-- Models `Filesystem::lookup` (resolve-child): reply with the child's
attributes, binding its path. -/
def ICFS.lookupOp (s : ICFS) (parent : Nat) (name : String) :
    ICFS × Option (Except Errno FileAttr) :=
  match s.get_entry parent with
  | none => (s, some (.error .ENOENT))
  | some (.file _) => (s, some (.error .ENOTDIR))
  | some (.directory directory) =>
    if !(KVList.containsKey name directory) then (s, some (.error .ENOENT))
    else
      match KVList.get parent s.inode_to_file with
      | none => (s, none)
      | some parentPath =>
        let res := s.create_inode (parentPath.with_pushed name)
        match res.1.get_inode_attrs res.2 with
        | none => (res.1, none)
        | some attrs => (res.1, some (.ok attrs))

/-- Models `Filesystem::forget` (release-reference). -/
def ICFS.forgetOp (s : ICFS) (ino : Nat) : ICFS :=
  s.remove_inode ino

/-- Models `Filesystem::getattr` (get-attributes). -/
def ICFS.getattrOp (s : ICFS) (ino : Nat) : ICFS × Option (Except Errno FileAttr) :=
  match s.get_entry ino with
  | some _ =>
    match s.get_inode_attrs ino with
    | none => (s, none)
    | some attrs => (s, some (.ok attrs))
  | none => (s, some (.error .ENOENT))

/-- Models `Filesystem::mkdir` (make-directory). -/
def ICFS.mkdirOp (s : ICFS) (parent : Nat) (name : String) :
    ICFS × Option (Except Errno FileAttr) :=
  match KVList.get parent s.inode_to_file with
  | none => (s, some (.error .ENOENT))
  | some parentPath =>
    match s.files.lookup parentPath with
    | none => (s, some (.error .ENOENT))
    | some (.file _) => (s, some (.error .ENOTDIR))
    | some (.directory directory) =>
      if KVList.containsKey name directory then (s, some (.error .EEXIST))
      else
        let s1 :=
          { s with
              files :=
                s.files.setAt parentPath
                  (.directory (KVList.insert name (.directory []) directory)) }
        let res := s1.create_inode (parentPath.with_pushed name)
        match res.1.get_inode_attrs res.2 with
        | none => (res.1, none)
        | some attrs => (res.1, some (.ok attrs))

/-- Models `Filesystem::unlink` (remove-entry, file variant): unconditional
`HashMap::remove` on the parent directory, then success. -/
def ICFS.unlinkOp (s : ICFS) (parent : Nat) (name : String) :
    ICFS × Option (Except Errno Unit) :=
  match KVList.get parent s.inode_to_file with
  | none => (s, some (.error .ENOENT))
  | some parentPath =>
    match s.files.lookup parentPath with
    | none => (s, some (.error .ENOENT))
    | some (.file _) => (s, some (.error .ENOTDIR))
    | some (.directory directory) =>
      ({ s with
          files := s.files.setAt parentPath (.directory (KVList.remove name directory)) },
        some (.ok ()))

/-- Models `Filesystem::rmdir` (remove-entry, directory variant): identical
body to `unlink` in the source. -/
def ICFS.rmdirOp (s : ICFS) (parent : Nat) (name : String) :
    ICFS × Option (Except Errno Unit) :=
  match KVList.get parent s.inode_to_file with
  | none => (s, some (.error .ENOENT))
  | some parentPath =>
    match s.files.lookup parentPath with
    | none => (s, some (.error .ENOENT))
    | some (.file _) => (s, some (.error .ENOTDIR))
    | some (.directory directory) =>
      ({ s with
          files := s.files.setAt parentPath (.directory (KVList.remove name directory)) },
        some (.ok ()))

/-- Models `Filesystem::read`: `&buffer[offset.min(len)..(offset + size).min(len)]`
(the `i64` offset is already non-negative here, as in every kernel
request; `usize` casts are the identity on these values). -/
def ICFS.readOp (s : ICFS) (ino : Nat) (offset : Nat) (size : Nat) :
    ICFS × Option (Except Errno (List Nat)) :=
  match s.get_entry ino with
  | none => (s, some (.error .ENOENT))
  | some (.directory _) => (s, some (.error .EISDIR))
  | some (.file buffer) =>
    (s, some (.ok ((buffer.take (min (offset + size) buffer.length)).drop
      (min offset buffer.length))))

/-- The byte loop of `Filesystem::write`: append at the current length,
overwrite below it, and panic (`none`) past it. -/
def ICFS.writeBytes (buffer : List Nat) (position : Nat) : List Nat → Option (List Nat)
  | [] => some buffer
  | byte :: rest =>
    if position = buffer.length then ICFS.writeBytes (buffer ++ [byte]) (position + 1) rest
    else if position < buffer.length then ICFS.writeBytes (buffer.set position byte) (position + 1) rest
    else none

/-- Models `Filesystem::write`: run the byte loop on the file's buffer and
reply with `data.len() as u32`. -/
def ICFS.writeOp (s : ICFS) (ino : Nat) (offset : Nat) (data : List Nat) :
    ICFS × Option (Except Errno Nat) :=
  match KVList.get ino s.inode_to_file with
  | none => (s, some (.error .ENOENT))
  | some path =>
    match s.files.lookup path with
    | none => (s, some (.error .ENOENT))
    | some (.directory _) => (s, some (.error .EISDIR))
    | some (.file buffer) =>
      match ICFS.writeBytes buffer offset data with
      | none => (s, none)
      | some buffer' =>
        ({ s with files := s.files.setAt path (.file buffer') },
          some (.ok (data.length % 2 ^ 32)))

/-- Models `Filesystem::rename`: remove the child from the source directory
first, then look at the destination (the `//todo: rollback file on
error` in the source marks that nothing restores the child when the
destination side fails). -/
def ICFS.renameOp (s : ICFS) (parent : Nat) (name : String) (newparent : Nat) (newname : String) :
    ICFS × Option (Except Errno Unit) :=
  match KVList.get parent s.inode_to_file with
  | none => (s, some (.error .ENOENT))
  | some parentPath =>
    match s.files.lookup parentPath with
    | none => (s, some (.error .ENOENT))
    | some (.file _) => (s, some (.error .ENOTDIR))
    | some (.directory directory) =>
      let file := KVList.get name directory
      let s1 :=
        { s with
            files := s.files.setAt parentPath (.directory (KVList.remove name directory)) }
      match file with
      | none => (s1, some (.error .ENOENT))
      | some file =>
        match KVList.get newparent s1.inode_to_file with
        | none => (s1, some (.error .ENOENT))
        | some newparentPath =>
          match s1.files.lookup newparentPath with
          | none => (s1, some (.error .ENOENT))
          | some (.file _) => (s1, some (.error .ENOTDIR))
          | some (.directory newdirectory) =>
            if KVList.containsKey newname newdirectory then (s1, some (.error .EEXIST))
            else
              ({ s1 with
                  files :=
                    s1.files.setAt newparentPath
                      (.directory (KVList.insert newname file newdirectory)) },
                some (.ok ()))

/-- The child loop of `Filesystem::readdir`: for each child name, look
its type up in the store (`unwrap`, hence `Option`), bind its path, and
emit a record at position `2 + i`. -/
def ICFS.readdirLoop (path : FileStoragePath) :
    ICFS → List String → Nat → Option (ICFS × List DirEntry)
  | s, [], _ => some (s, [])
  | s, entry :: rest, i =>
    let childPath := path.with_pushed entry
    match s.files.lookup childPath with
    | none => none
    | some e =>
      let fileType :=
        match e with
        | .file _ => FileType.regularFile
        | .directory _ => FileType.directory
      let res := s.create_inode childPath
      match ICFS.readdirLoop path res.1 rest (i + 1) with
      | none => none
      | some (s2, entries) =>
        some (s2, ⟨res.2, 2 + i, fileType, entry⟩ :: entries)

/-- Models `Filesystem::readdir` (enumerate-children): any non-zero offset
replies with an empty listing; offset zero lists `.`, `..` (binding the
popped path) and every child. -/
def ICFS.readdirOp (s : ICFS) (ino : Nat) (offset : Nat) :
    ICFS × Option (Except Errno (List DirEntry)) :=
  if offset ≠ 0 then (s, some (.ok []))
  else
    match s.get_entry ino with
    | none => (s, some (.error .ENOENT))
    | some (.file _) => (s, some (.error .ENOTDIR))
    | some (.directory directory) =>
      let entries := KVList.keys directory
      match KVList.get ino s.inode_to_file with
      | none => (s, none)
      | some path =>
        let res := s.create_inode path.with_popped
        match ICFS.readdirLoop path res.1 entries 0 with
        | none => (res.1, none)
        | some (s2, childEntries) =>
          (s2, some (.ok
            (⟨ino, 0, FileType.directory, "."⟩ ::
              ⟨res.2, 1, FileType.directory, ".."⟩ :: childEntries)))

/-- Models `Filesystem::create` (create-file): `entry(name).or_insert(File(vec![]))`,
then bind the child's path and reply with its attributes. -/
def ICFS.createOp (s : ICFS) (parent : Nat) (name : String) :
    ICFS × Option (Except Errno FileAttr) :=
  match KVList.get parent s.inode_to_file with
  | none => (s, some (.error .ENOENT))
  | some parentPath =>
    match s.files.lookup parentPath with
    | none => (s, some (.error .ENOENT))
    | some (.file _) => (s, some (.error .ENOTDIR))
    | some (.directory directory) =>
      let directory' :=
        if KVList.containsKey name directory then directory
        else KVList.insert name (.file []) directory
      let s1 := { s with files := s.files.setAt parentPath (.directory directory') }
      let res := s1.create_inode (parentPath.with_pushed name)
      match res.1.get_inode_attrs res.2 with
      | none => (res.1, none)
      | some attrs => (res.1, some (.ok attrs))

/-! ## KVList / list helper facts used by the invariant -/

theorem nodup_append_singleton {γ : Type} {l : List γ} {a : γ}
    (h : l.Nodup) (ha : a ∉ l) : (l ++ [a]).Nodup := by
  rw [List.nodup_append]
  exact ⟨h, List.nodup_singleton a, fun x hx hxa => ha ((List.mem_singleton.mp hxa) ▸ hx)⟩

namespace KVList

variable {α β : Type} [DecidableEq α]

theorem get_of_containsKey_false {k : α} {l : List (α × β)} (h : containsKey k l = false) :
    get k l = none := by
  rw [containsKey, Bool.eq_false_iff] at h
  exact Option.not_isSome_iff_eq_none.mp h

theorem get_of_containsKey_true {k : α} {l : List (α × β)} (h : containsKey k l = true) :
    ∃ v, get k l = some v := by
  rw [containsKey] at h
  exact Option.isSome_iff_exists.mp h

end KVList

/-! ## Well-formedness helpers for directory mutation -/

namespace EntryWF

theorem child {children : List (String × FileStorageEntry)} {name : String} {e : FileStorageEntry}
    (hwf : EntryWF (.directory children)) (hget : KVList.get name children = some e) :
    EntryWF e := by
  cases hwf with
  | directory _ hkeys hvals => exact hvals _ (KVList.get_mem hget)

theorem insert_child {children : List (String × FileStorageEntry)} {name : String}
    {e : FileStorageEntry} (hwf : EntryWF (.directory children)) (hnew : EntryWF e)
    (hget : KVList.get name children = none) :
    EntryWF (.directory (KVList.insert name e children)) := by
  cases hwf with
  | directory _ hkeys hvals =>
    refine EntryWF.directory _ ?_ ?_
    · rw [KVList.keys_insert_not_mem hget]
      exact nodup_append_singleton hkeys (KVList.get_eq_none_iff.mp hget)
    · intro q hq
      rcases KVList.mem_insert hq with hq' | hq'
      · exact hvals _ hq'
      · rw [hq']
        exact hnew

theorem remove_child {children : List (String × FileStorageEntry)} {name : String}
    (hwf : EntryWF (.directory children)) :
    EntryWF (.directory (KVList.remove name children)) := by
  cases hwf with
  | directory _ hkeys hvals =>
    exact EntryWF.directory _ (KVList.keys_remove_nodup hkeys name)
      (fun q hq => hvals _ (KVList.mem_remove hq))

end EntryWF

/-! ## The inode-table invariant -/

/-- The cross-field invariant of the adapter state: the two mapping
directions hold exactly the same pairs, the table keys and the reuse set
are duplicate-free, reuse-set members are unbound, the inode numbers in
use (bound or reserved) are exactly `1 .. bound + reserved`, and every
directory in the store has duplicate-free child names. -/
structure ICFSInv (s : ICFS) : Prop where
  maps_inv : ∀ i p, KVList.get i s.inode_to_file = some p ↔
      KVList.get p s.file_to_inode = some i
  i2f_nodup : (KVList.keys s.inode_to_file).Nodup
  f2i_nodup : (KVList.keys s.file_to_inode).Nodup
  unused_nodup : s.unused_inodes.Nodup
  unused_unbound : ∀ i ∈ s.unused_inodes, KVList.get i s.inode_to_file = none
  range : ∀ i, (KVList.get i s.inode_to_file ≠ none ∨ i ∈ s.unused_inodes) ↔
      (1 ≤ i ∧ i ≤ s.inode_to_file.length + s.unused_inodes.length)
  tree_wf : EntryWF s.files.root

theorem ICFSInv.bind_fresh {s : ICFS} (h : ICFSInv s) {p : FileStoragePath} {i0 : Nat}
    (hp : KVList.get p s.file_to_inode = none)
    (hi : KVList.get i0 s.inode_to_file = none) :
    ∀ i q, KVList.get i (KVList.insert i0 p s.inode_to_file) = some q ↔
      KVList.get q (KVList.insert p i0 s.file_to_inode) = some i := by
  intro i q
  by_cases hii : i = i0
  · subst hii
    by_cases hqq : q = p
    · subst hqq
      simp [KVList.get_insert_self]
    · rw [KVList.get_insert_self, KVList.get_insert_ne hqq]
      constructor
      · intro hL
        exact absurd (Option.some.inj hL) (fun hh => hqq hh.symm)
      · intro hR
        have := (h.maps_inv i q).mpr hR
        rw [hi] at this
        exact Option.noConfusion this
  · by_cases hqq : q = p
    · subst hqq
      rw [KVList.get_insert_ne hii, KVList.get_insert_self]
      constructor
      · intro hL
        have := (h.maps_inv i q).mp hL
        rw [hp] at this
        exact Option.noConfusion this
      · intro hR
        exact absurd (Option.some.inj hR) (fun hh => hii hh.symm)
    · rw [KVList.get_insert_ne hii, KVList.get_insert_ne hqq]
      exact h.maps_inv i q

theorem ICFSInv.create_inode_pres {s : ICFS} (h : ICFSInv s) (p : FileStoragePath) :
    ICFSInv (s.create_inode p).1 := by
  unfold ICFS.create_inode
  cases hg : KVList.get p s.file_to_inode with
  | some inode => exact h
  | none =>
    cases hu : s.unused_inodes with
    | nil =>
      dsimp only
      have hi : KVList.get (s.inode_to_file.length + 1) s.inode_to_file = none := by
        by_contra hne
        have h1 := (h.range (s.inode_to_file.length + 1)).mp (Or.inl hne)
        rw [hu] at h1
        simp only [List.length_nil] at h1
        omega
      refine ⟨ICFSInv.bind_fresh h hg hi, ?_, ?_, List.nodup_nil, ?_, ?_, h.tree_wf⟩
      · rw [KVList.keys_insert_not_mem hi]
        exact nodup_append_singleton h.i2f_nodup (KVList.get_eq_none_iff.mp hi)
      · rw [KVList.keys_insert_not_mem hg]
        exact nodup_append_singleton h.f2i_nodup (KVList.get_eq_none_iff.mp hg)
      · intro i hiu
        exact absurd hiu (List.not_mem_nil i)
      · intro i
        rw [KVList.length_insert_not_mem hi]
        simp only [List.length_nil, List.not_mem_nil, or_false]
        by_cases hii : i = s.inode_to_file.length + 1
        · subst hii
          rw [KVList.get_insert_self]
          constructor
          · intro _
            omega
          · intro _
            exact fun hh => Option.noConfusion hh
        · rw [KVList.get_insert_ne hii]
          have hold := h.range i
          rw [hu] at hold
          simp only [List.length_nil, List.not_mem_nil, or_false] at hold
          constructor
          · intro hL
            have := hold.mp hL
            omega
          · intro hR
            apply hold.mpr
            omega
    | cons u rest =>
      dsimp only
      rw [List.erase_cons_head]
      have humem : u ∈ s.unused_inodes := by rw [hu]; exact List.mem_cons_self u rest
      have hi : KVList.get u s.inode_to_file = none := h.unused_unbound u humem
      have hrest_nodup : rest.Nodup := by
        have := h.unused_nodup
        rw [hu] at this
        exact (List.nodup_cons.mp this).2
      have hu_rest : u ∉ rest := by
        have := h.unused_nodup
        rw [hu] at this
        exact (List.nodup_cons.mp this).1
      refine ⟨ICFSInv.bind_fresh h hg hi, ?_, ?_, hrest_nodup, ?_, ?_, h.tree_wf⟩
      · rw [KVList.keys_insert_not_mem hi]
        exact nodup_append_singleton h.i2f_nodup (KVList.get_eq_none_iff.mp hi)
      · rw [KVList.keys_insert_not_mem hg]
        exact nodup_append_singleton h.f2i_nodup (KVList.get_eq_none_iff.mp hg)
      · intro i hiu
        have hi' : i ∈ s.unused_inodes := by
          rw [hu]
          exact List.mem_cons_of_mem u hiu
        have hiu' : i ≠ u := fun hh => hu_rest (hh ▸ hiu)
        rw [KVList.get_insert_ne hiu']
        exact h.unused_unbound i hi'
      · intro i
        dsimp only
        rw [KVList.length_insert_not_mem hi]
        by_cases hii : i = u
        · subst hii
          rw [KVList.get_insert_self]
          have hold := (h.range i).mp (Or.inr humem)
          rw [hu] at hold
          simp only [List.length_cons] at hold
          constructor
          · intro _
            omega
          · intro _
            exact Or.inl (fun hh => Option.noConfusion hh)
        · rw [KVList.get_insert_ne hii]
          have hold := h.range i
          rw [hu] at hold
          simp only [List.length_cons, List.mem_cons] at hold
          constructor
          · intro hL
            have h1 : 1 ≤ i ∧ i ≤ s.inode_to_file.length + (rest.length + 1) := by
              apply hold.mp
              rcases hL with hL | hL
              · exact Or.inl hL
              · exact Or.inr (Or.inr hL)
            omega
          · intro hR
            have h1 : KVList.get i s.inode_to_file ≠ none ∨ (i = u ∨ i ∈ rest) := by
              apply hold.mpr
              omega
            rcases h1 with h1 | h1 | h1
            · exact Or.inl h1
            · exact absurd h1 hii
            · exact Or.inr h1

theorem ICFSInv.remove_inode_pres {s : ICFS} (h : ICFSInv s) (i0 : Nat) :
    ICFSInv (s.remove_inode i0) := by
  unfold ICFS.remove_inode
  cases hg : KVList.get i0 s.inode_to_file with
  | none => exact h
  | some p =>
    dsimp only
    have hp : KVList.get p s.file_to_inode = some i0 := (h.maps_inv i0 p).mp hg
    have hnu : i0 ∉ s.unused_inodes := by
      intro hmem
      rw [h.unused_unbound i0 hmem] at hg
      exact Option.noConfusion hg
    rw [if_neg hnu]
    refine ⟨?_, ?_, ?_, h.unused_nodup.cons hnu, ?_, ?_, h.tree_wf⟩
    · intro j q
      by_cases hj : j = i0
      · subst hj
        rw [KVList.get_remove_self h.i2f_nodup]
        constructor
        · intro hL
          exact Option.noConfusion hL
        · intro hR
          by_cases hq : q = p
          · subst hq
            rw [KVList.get_remove_self h.f2i_nodup] at hR
            exact Option.noConfusion hR
          · rw [KVList.get_remove_ne hq] at hR
            have := (h.maps_inv j q).mpr hR
            rw [hg] at this
            exact absurd (Option.some.inj this) (fun hh => hq hh.symm)
      · rw [KVList.get_remove_ne hj]
        by_cases hq : q = p
        · subst hq
          rw [KVList.get_remove_self h.f2i_nodup]
          constructor
          · intro hL
            have := (h.maps_inv j q).mp hL
            rw [hp] at this
            exact absurd (Option.some.inj this) (fun hh => hj hh.symm)
          · intro hR
            exact Option.noConfusion hR
        · rw [KVList.get_remove_ne hq]
          exact h.maps_inv j q
    · exact KVList.keys_remove_nodup h.i2f_nodup i0
    · exact KVList.keys_remove_nodup h.f2i_nodup p
    · intro j hj
      have hj2 : j = i0 ∨ j ∈ s.unused_inodes := List.mem_cons.mp hj
      rcases hj2 with hj2 | hj2
      · subst hj2
        exact KVList.get_remove_self h.i2f_nodup
      · have hj' : j ≠ i0 := fun hh => hnu (hh ▸ hj2)
        rw [KVList.get_remove_ne hj']
        exact h.unused_unbound j hj2
    · intro j
      have hlen : (KVList.remove i0 s.inode_to_file).length + 1 = s.inode_to_file.length :=
        KVList.length_remove_mem hg
      by_cases hj : j = i0
      · subst hj
        have hold := (h.range j).mp (Or.inl (by rw [hg]; exact fun hh => Option.noConfusion hh))
        simp only [List.mem_cons, List.length_cons]
        constructor
        · intro hL
          omega
        · intro hR
          exact Or.inr (Or.inl (by first | rfl | trivial))
      · rw [KVList.get_remove_ne hj]
        have hold := h.range j
        simp only [List.mem_cons, List.length_cons]
        constructor
        · intro hL
          have h1 : 1 ≤ j ∧ j ≤ s.inode_to_file.length + s.unused_inodes.length := by
            apply hold.mp
            rcases hL with hL | hL | hL
            · exact Or.inl hL
            · exact absurd hL hj
            · exact Or.inr hL
          omega
        · intro hR
          have h1 : KVList.get j s.inode_to_file ≠ none ∨ j ∈ s.unused_inodes := by
            apply hold.mpr
            omega
          rcases h1 with h1 | h1
          · exact Or.inl h1
          · exact Or.inr (Or.inr h1)

theorem ICFSInv.set_files_pres {s : ICFS} (h : ICFSInv s) {p : FileStoragePath}
    {e : FileStorageEntry} (hwf : EntryWF e) :
    ICFSInv { s with files := s.files.setAt p e } :=
  ⟨h.maps_inv, h.i2f_nodup, h.f2i_nodup, h.unused_nodup, h.unused_unbound, h.range,
    FileStorageEntry.wf_replacedAt h.tree_wf hwf⟩

theorem ICFS.create_inode_files (s : ICFS) (p : FileStoragePath) :
    (s.create_inode p).1.files = s.files := by
  unfold ICFS.create_inode
  cases hg : KVList.get p s.file_to_inode with
  | some inode => rfl
  | none => cases hu : s.unused_inodes <;> rfl

theorem ICFS.readdirLoop_preserves (P : ICFS → Prop)
    (hP : ∀ (s : ICFS) (q : FileStoragePath), P s → P (s.create_inode q).1)
    (path : FileStoragePath) :
    ∀ (names : List String) (i : Nat) (s s' : ICFS) (es : List DirEntry),
      ICFS.readdirLoop path s names i = some (s', es) → P s → P s' := by
  intro names
  induction names with
  | nil =>
    intro i s s' es hrun hp
    simp only [ICFS.readdirLoop, Option.some.injEq, Prod.mk.injEq] at hrun
    exact hrun.1 ▸ hp
  | cons n rest ih =>
    intro i s s' es hrun hp
    simp only [ICFS.readdirLoop] at hrun
    cases hl : s.files.lookup (path.with_pushed n) with
    | none =>
      rw [hl] at hrun
      exact Option.noConfusion hrun
    | some e =>
      rw [hl] at hrun
      dsimp only at hrun
      cases hrec : ICFS.readdirLoop path (s.create_inode (path.with_pushed n)).1 rest (i + 1) with
      | none =>
        rw [hrec] at hrun
        exact Option.noConfusion hrun
      | some pr =>
        obtain ⟨s2, es2⟩ := pr
        rw [hrec] at hrun
        simp only [Option.some.injEq, Prod.mk.injEq] at hrun
        exact hrun.1 ▸ ih (i + 1) _ s2 es2 hrec (hP s _ hp)

theorem ICFSInv.lookupOp_pres {s : ICFS} (h : ICFSInv s) (parent : Nat) (name : String) :
    ICFSInv (s.lookupOp parent name).1 := by
  unfold ICFS.lookupOp
  split
  · exact h
  · exact h
  · split
    · exact h
    · split
      · exact h
      · dsimp only
        split
        · exact h.create_inode_pres _
        · exact h.create_inode_pres _

theorem ICFSInv.forgetOp_pres {s : ICFS} (h : ICFSInv s) (ino : Nat) :
    ICFSInv (s.forgetOp ino) :=
  h.remove_inode_pres ino

theorem ICFSInv.getattrOp_pres {s : ICFS} (h : ICFSInv s) (ino : Nat) :
    ICFSInv (s.getattrOp ino).1 := by
  unfold ICFS.getattrOp
  split
  · split
    · exact h
    · exact h
  · exact h

theorem ICFSInv.mkdirOp_pres {s : ICFS} (h : ICFSInv s) (parent : Nat) (name : String) :
    ICFSInv (s.mkdirOp parent name).1 := by
  unfold ICFS.mkdirOp
  split
  · exact h
  · split
    · exact h
    · exact h
    · rename_i parentPath hpp directory hdir
      split
      · exact h
      · rename_i hcont
        have hget : KVList.get name directory = none :=
          KVList.get_of_containsKey_false (Bool.eq_false_iff.mpr hcont)
        have hwfdir : EntryWF (.directory directory) :=
          FileStorageEntry.wf_lookupPath h.tree_wf hdir
        have hwf : EntryWF (.directory (KVList.insert name (.directory []) directory)) :=
          EntryWF.insert_child hwfdir
            (EntryWF.directory [] (by simp) (fun q hq => absurd hq (List.not_mem_nil q))) hget
        dsimp only
        split
        · exact (h.set_files_pres hwf).create_inode_pres _
        · exact (h.set_files_pres hwf).create_inode_pres _

theorem ICFSInv.unlinkOp_pres {s : ICFS} (h : ICFSInv s) (parent : Nat) (name : String) :
    ICFSInv (s.unlinkOp parent name).1 := by
  unfold ICFS.unlinkOp
  split
  · exact h
  · split
    · exact h
    · exact h
    · rename_i parentPath hpp directory hdir
      exact h.set_files_pres (EntryWF.remove_child (FileStorageEntry.wf_lookupPath h.tree_wf hdir))

theorem ICFSInv.rmdirOp_pres {s : ICFS} (h : ICFSInv s) (parent : Nat) (name : String) :
    ICFSInv (s.rmdirOp parent name).1 := by
  unfold ICFS.rmdirOp
  split
  · exact h
  · split
    · exact h
    · exact h
    · rename_i parentPath hpp directory hdir
      exact h.set_files_pres (EntryWF.remove_child (FileStorageEntry.wf_lookupPath h.tree_wf hdir))

theorem ICFSInv.readOp_pres {s : ICFS} (h : ICFSInv s) (ino offset size : Nat) :
    ICFSInv (s.readOp ino offset size).1 := by
  unfold ICFS.readOp
  split <;> exact h

theorem ICFSInv.writeOp_pres {s : ICFS} (h : ICFSInv s) (ino offset : Nat) (data : List Nat) :
    ICFSInv (s.writeOp ino offset data).1 := by
  unfold ICFS.writeOp
  split
  · exact h
  · split
    · exact h
    · exact h
    · split
      · exact h
      · exact h.set_files_pres (EntryWF.file _)

theorem ICFSInv.set_remove {s : ICFS} (h : ICFSInv s) {p : FileStoragePath}
    {d : List (String × FileStorageEntry)} (hd : s.files.lookup p = some (.directory d))
    (name : String) :
    ICFSInv { s with files := s.files.setAt p (.directory (KVList.remove name d)) } :=
  h.set_files_pres (EntryWF.remove_child (FileStorageEntry.wf_lookupPath h.tree_wf hd))

theorem ICFSInv.renameOp_pres {s : ICFS} (h : ICFSInv s) (parent : Nat) (name : String)
    (newparent : Nat) (newname : String) :
    ICFSInv (s.renameOp parent name newparent newname).1 := by
  unfold ICFS.renameOp
  split
  · exact h
  · split
    · exact h
    · exact h
    · rename_i directory hdir
      have hwfdir : EntryWF (.directory directory) :=
        FileStorageEntry.wf_lookupPath h.tree_wf hdir
      have h1 := h.set_remove hdir name
      dsimp only
      split
      · exact h1
      · rename_i file hfile
        split
        · exact h1
        · split
          · exact h1
          · exact h1
          · rename_i newdirectory hndir
            split
            · exact h1
            · rename_i hcont
              have hget : KVList.get newname newdirectory = none :=
                KVList.get_of_containsKey_false (Bool.eq_false_iff.mpr hcont)
              have hwffile : EntryWF file := EntryWF.child hwfdir hfile
              have hwfnew : EntryWF (.directory newdirectory) :=
                FileStorageEntry.wf_lookupPath h1.tree_wf hndir
              exact h1.set_files_pres (EntryWF.insert_child hwfnew hwffile hget)

theorem ICFSInv.readdirOp_pres {s : ICFS} (h : ICFSInv s) (ino offset : Nat) :
    ICFSInv (s.readdirOp ino offset).1 := by
  unfold ICFS.readdirOp
  split
  · exact h
  · split
    · exact h
    · exact h
    · dsimp only
      split
      · exact h
      · split
        · exact h.create_inode_pres _
        · rename_i pr s2 es2 hrun
          exact ICFS.readdirLoop_preserves ICFSInv
            (fun s q hh => hh.create_inode_pres q) _ _ _ _ _ _ hrun (h.create_inode_pres _)

theorem ICFSInv.createOp_pres {s : ICFS} (h : ICFSInv s) (parent : Nat) (name : String) :
    ICFSInv (s.createOp parent name).1 := by
  unfold ICFS.createOp
  split
  · exact h
  · split
    · exact h
    · exact h
    · rename_i directory hdir
      have hwfdir : EntryWF (.directory directory) :=
        FileStorageEntry.wf_lookupPath h.tree_wf hdir
      have hwf : EntryWF (.directory
          (if KVList.containsKey name directory then directory
           else KVList.insert name (.file []) directory)) := by
        by_cases hc : KVList.containsKey name directory = true
        · rw [if_pos hc]
          exact hwfdir
        · rw [if_neg hc]
          exact EntryWF.insert_child hwfdir (EntryWF.file _)
            (KVList.get_of_containsKey_false (Bool.eq_false_iff.mpr hc))
      dsimp only
      split
      · exact (h.set_files_pres hwf).create_inode_pres _
      · exact (h.set_files_pres hwf).create_inode_pres _

/-! ## Reachable adapter states -/

/-- One protocol callback, with arbitrary kernel-supplied arguments. -/
inductive Step : ICFS → ICFS → Prop where
  | lookup (s : ICFS) (parent : Nat) (name : String) : Step s (s.lookupOp parent name).1
  | forget (s : ICFS) (ino : Nat) : Step s (s.forgetOp ino)
  | getattr (s : ICFS) (ino : Nat) : Step s (s.getattrOp ino).1
  | mkdir (s : ICFS) (parent : Nat) (name : String) : Step s (s.mkdirOp parent name).1
  | unlink (s : ICFS) (parent : Nat) (name : String) : Step s (s.unlinkOp parent name).1
  | rmdir (s : ICFS) (parent : Nat) (name : String) : Step s (s.rmdirOp parent name).1
  | read (s : ICFS) (ino offset size : Nat) : Step s (s.readOp ino offset size).1
  | write (s : ICFS) (ino offset : Nat) (data : List Nat) :
      Step s (s.writeOp ino offset data).1
  | rename (s : ICFS) (parent : Nat) (name : String) (newparent : Nat) (newname : String) :
      Step s (s.renameOp parent name newparent newname).1
  | readdir (s : ICFS) (ino offset : Nat) : Step s (s.readdirOp ino offset).1
  | create (s : ICFS) (parent : Nat) (name : String) : Step s (s.createOp parent name).1

/-- States reachable from `ICFS::new()` by protocol callbacks. -/
inductive Reachable : ICFS → Prop where
  | init : Reachable ICFS.new
  | step {s t : ICFS} : Reachable s → Step s t → Reachable t

theorem ICFSInv_new : ICFSInv ICFS.new := by
  constructor
  · intro i p
    show KVList.get i [(1, ([] : FileStoragePath))] = some p ↔
        KVList.get p [(([] : FileStoragePath), 1)] = some i
    constructor
    · intro hL
      simp only [KVList.get] at hL
      split at hL
      · rename_i hi
        have hp : ([] : FileStoragePath) = p := Option.some.inj hL
        simp only [KVList.get, if_pos hp]
        rw [hi]
      · exact Option.noConfusion hL
    · intro hR
      simp only [KVList.get] at hR
      split at hR
      · rename_i hp
        have hi : (1 : Nat) = i := Option.some.inj hR
        simp only [KVList.get, if_pos hi]
        rw [hp]
      · exact Option.noConfusion hR
  · show (KVList.keys [(1, ([] : FileStoragePath))]).Nodup
    simp [KVList.keys]
  · show (KVList.keys [(([] : FileStoragePath), 1)]).Nodup
    simp [KVList.keys]
  · show ([] : List Nat).Nodup
    exact List.nodup_nil
  · intro i hi
    exact absurd hi (List.not_mem_nil i)
  · intro i
    show (KVList.get i [(1, ([] : FileStoragePath))] ≠ none ∨ i ∈ ([] : List Nat)) ↔
        1 ≤ i ∧ i ≤ [(1, ([] : FileStoragePath))].length + ([] : List Nat).length
    simp only [KVList.get, List.length_singleton, List.length_nil, List.not_mem_nil, or_false]
    by_cases h1 : (1 : Nat) = i
    · subst h1
      simp
    · simp [h1]
      omega
  · show EntryWF (.directory [])
    exact EntryWF.directory [] (by simp) (fun q hq => absurd hq (List.not_mem_nil q))

theorem Step.inv_pres {s t : ICFS} (hs : ICFSInv s) (h : Step s t) : ICFSInv t := by
  cases h with
  | lookup parent name => exact hs.lookupOp_pres parent name
  | forget ino => exact hs.forgetOp_pres ino
  | getattr ino => exact hs.getattrOp_pres ino
  | mkdir parent name => exact hs.mkdirOp_pres parent name
  | unlink parent name => exact hs.unlinkOp_pres parent name
  | rmdir parent name => exact hs.rmdirOp_pres parent name
  | read ino offset size => exact hs.readOp_pres ino offset size
  | write ino offset data => exact hs.writeOp_pres ino offset data
  | rename parent name newparent newname => exact hs.renameOp_pres parent name newparent newname
  | readdir ino offset => exact hs.readdirOp_pres ino offset
  | create parent name => exact hs.createOp_pres parent name

theorem Reachable.invariant {s : ICFS} (h : Reachable s) : ICFSInv s := by
  induction h with
  | init => exact ICFSInv_new
  | step hr hstep ih => exact hstep.inv_pres ih

/-! ## The root binding under callbacks that never forget inode 1 -/

/-- The root path is bound to inode 1 in both directions and 1 is not
reserved for reuse. -/
structure RootInv (s : ICFS) : Prop where
  bound_i : KVList.get 1 s.inode_to_file = some ([] : FileStoragePath)
  bound_p : KVList.get ([] : FileStoragePath) s.file_to_inode = some 1
  not_unused : (1 : Nat) ∉ s.unused_inodes

theorem RootInv.create_inode_root {s : ICFS} (h : RootInv s) (p : FileStoragePath) :
    RootInv (s.create_inode p).1 := by
  unfold ICFS.create_inode
  cases hg : KVList.get p s.file_to_inode with
  | some inode => exact h
  | none =>
    have hp_ne : ([] : FileStoragePath) ≠ p := by
      intro hh
      rw [← hh, h.bound_p] at hg
      exact Option.noConfusion hg
    cases hu : s.unused_inodes with
    | nil =>
      dsimp only
      have hlen : 1 ≤ s.inode_to_file.length := by
        have hmem := KVList.mem_keys_of_get h.bound_i
        have : 0 < (KVList.keys s.inode_to_file).length := List.length_pos.mpr
          (fun hh => by rw [hh] at hmem; exact List.not_mem_nil _ hmem)
        simpa [KVList.keys] using this
      refine ⟨?_, ?_, ?_⟩
      · rw [KVList.get_insert_ne (by omega)]
        exact h.bound_i
      · rw [KVList.get_insert_ne hp_ne]
        exact h.bound_p
      · exact List.not_mem_nil 1
    | cons u rest =>
      dsimp only
      rw [List.erase_cons_head]
      have hu_mem : u ∈ s.unused_inodes := by rw [hu]; exact List.mem_cons_self u rest
      have hu_ne : (1 : Nat) ≠ u := fun hh => h.not_unused (hh ▸ hu_mem)
      refine ⟨?_, ?_, ?_⟩
      · rw [KVList.get_insert_ne hu_ne]
        exact h.bound_i
      · rw [KVList.get_insert_ne hp_ne]
        exact h.bound_p
      · intro hmem
        apply h.not_unused
        rw [hu]
        exact List.mem_cons_of_mem u hmem

theorem RootInv.remove_inode_root {s : ICFS} (hInv : ICFSInv s) (h : RootInv s) {i0 : Nat}
    (hne : i0 ≠ 1) : RootInv (s.remove_inode i0) := by
  unfold ICFS.remove_inode
  cases hg : KVList.get i0 s.inode_to_file with
  | none => exact h
  | some p =>
    dsimp only
    have hp_ne : ([] : FileStoragePath) ≠ p := by
      intro hh
      rw [← hh] at hg
      have h2 := (hInv.maps_inv i0 []).mp hg
      rw [h.bound_p] at h2
      exact hne (Option.some.inj h2).symm
    refine ⟨?_, ?_, ?_⟩
    · rw [KVList.get_remove_ne (Ne.symm hne)]
      exact h.bound_i
    · rw [KVList.get_remove_ne hp_ne]
      exact h.bound_p
    · split
      · exact h.not_unused
      · intro hmem
        rcases List.mem_cons.mp hmem with hh | hh
        · exact (Ne.symm hne) hh
        · exact h.not_unused hh

theorem RootInv.set_files_root {s : ICFS} (h : RootInv s) {fs : FileStorage} :
    RootInv { s with files := fs } :=
  ⟨h.bound_i, h.bound_p, h.not_unused⟩

theorem RootInv.lookupOp_root {s : ICFS} (h : RootInv s) (parent : Nat) (name : String) :
    RootInv (s.lookupOp parent name).1 := by
  unfold ICFS.lookupOp
  split
  · exact h
  · exact h
  · split
    · exact h
    · split
      · exact h
      · dsimp only
        split
        · exact h.create_inode_root _
        · exact h.create_inode_root _

theorem RootInv.getattrOp_root {s : ICFS} (h : RootInv s) (ino : Nat) :
    RootInv (s.getattrOp ino).1 := by
  unfold ICFS.getattrOp
  split
  · split
    · exact h
    · exact h
  · exact h

theorem RootInv.mkdirOp_root {s : ICFS} (h : RootInv s) (parent : Nat) (name : String) :
    RootInv (s.mkdirOp parent name).1 := by
  unfold ICFS.mkdirOp
  split
  · exact h
  · split
    · exact h
    · exact h
    · split
      · exact h
      · dsimp only
        split
        · exact (RootInv.set_files_root h).create_inode_root _
        · exact (RootInv.set_files_root h).create_inode_root _

theorem RootInv.unlinkOp_root {s : ICFS} (h : RootInv s) (parent : Nat) (name : String) :
    RootInv (s.unlinkOp parent name).1 := by
  unfold ICFS.unlinkOp
  split
  · exact h
  · split
    · exact h
    · exact h
    · exact RootInv.set_files_root h

theorem RootInv.rmdirOp_root {s : ICFS} (h : RootInv s) (parent : Nat) (name : String) :
    RootInv (s.rmdirOp parent name).1 := by
  unfold ICFS.rmdirOp
  split
  · exact h
  · split
    · exact h
    · exact h
    · exact RootInv.set_files_root h

theorem RootInv.readOp_root {s : ICFS} (h : RootInv s) (ino offset size : Nat) :
    RootInv (s.readOp ino offset size).1 := by
  unfold ICFS.readOp
  split <;> exact h

theorem RootInv.writeOp_root {s : ICFS} (h : RootInv s) (ino offset : Nat) (data : List Nat) :
    RootInv (s.writeOp ino offset data).1 := by
  unfold ICFS.writeOp
  split
  · exact h
  · split
    · exact h
    · exact h
    · split
      · exact h
      · exact RootInv.set_files_root h

theorem RootInv.renameOp_root {s : ICFS} (h : RootInv s) (parent : Nat) (name : String)
    (newparent : Nat) (newname : String) :
    RootInv (s.renameOp parent name newparent newname).1 := by
  unfold ICFS.renameOp
  split
  · exact h
  · split
    · exact h
    · exact h
    · dsimp only
      split
      · exact RootInv.set_files_root h
      · split
        · exact RootInv.set_files_root h
        · split
          · exact RootInv.set_files_root h
          · exact RootInv.set_files_root h
          · split
            · exact RootInv.set_files_root h
            · exact RootInv.set_files_root (RootInv.set_files_root h)

theorem RootInv.readdirOp_root {s : ICFS} (h : RootInv s) (ino offset : Nat) :
    RootInv (s.readdirOp ino offset).1 := by
  unfold ICFS.readdirOp
  split
  · exact h
  · split
    · exact h
    · exact h
    · dsimp only
      split
      · exact h
      · split
        · exact h.create_inode_root _
        · rename_i pr s2 es2 hrun
          exact ICFS.readdirLoop_preserves RootInv
            (fun s q hh => hh.create_inode_root q) _ _ _ _ _ _ hrun (h.create_inode_root _)

theorem RootInv.createOp_root {s : ICFS} (h : RootInv s) (parent : Nat) (name : String) :
    RootInv (s.createOp parent name).1 := by
  unfold ICFS.createOp
  split
  · exact h
  · split
    · exact h
    · exact h
    · dsimp only
      split
      · exact (RootInv.set_files_root h).create_inode_root _
      · exact (RootInv.set_files_root h).create_inode_root _

/-- One protocol callback that is not a release-reference on inode 1. -/
inductive StepSafe : ICFS → ICFS → Prop where
  | lookup (s : ICFS) (parent : Nat) (name : String) : StepSafe s (s.lookupOp parent name).1
  | forget (s : ICFS) (ino : Nat) (hne : ino ≠ 1) : StepSafe s (s.forgetOp ino)
  | getattr (s : ICFS) (ino : Nat) : StepSafe s (s.getattrOp ino).1
  | mkdir (s : ICFS) (parent : Nat) (name : String) : StepSafe s (s.mkdirOp parent name).1
  | unlink (s : ICFS) (parent : Nat) (name : String) : StepSafe s (s.unlinkOp parent name).1
  | rmdir (s : ICFS) (parent : Nat) (name : String) : StepSafe s (s.rmdirOp parent name).1
  | read (s : ICFS) (ino offset size : Nat) : StepSafe s (s.readOp ino offset size).1
  | write (s : ICFS) (ino offset : Nat) (data : List Nat) :
      StepSafe s (s.writeOp ino offset data).1
  | rename (s : ICFS) (parent : Nat) (name : String) (newparent : Nat) (newname : String) :
      StepSafe s (s.renameOp parent name newparent newname).1
  | readdir (s : ICFS) (ino offset : Nat) : StepSafe s (s.readdirOp ino offset).1
  | create (s : ICFS) (parent : Nat) (name : String) : StepSafe s (s.createOp parent name).1

/-- States reachable from `ICFS::new()` without ever forgetting inode 1. -/
inductive ReachableSafe : ICFS → Prop where
  | init : ReachableSafe ICFS.new
  | step {s t : ICFS} : ReachableSafe s → StepSafe s t → ReachableSafe t

theorem StepSafe.toStep {s t : ICFS} (h : StepSafe s t) : Step s t := by
  cases h with
  | lookup parent name => exact Step.lookup s parent name
  | forget ino hne => exact Step.forget s ino
  | getattr ino => exact Step.getattr s ino
  | mkdir parent name => exact Step.mkdir s parent name
  | unlink parent name => exact Step.unlink s parent name
  | rmdir parent name => exact Step.rmdir s parent name
  | read ino offset size => exact Step.read s ino offset size
  | write ino offset data => exact Step.write s ino offset data
  | rename parent name newparent newname => exact Step.rename s parent name newparent newname
  | readdir ino offset => exact Step.readdir s ino offset
  | create parent name => exact Step.create s parent name

theorem ReachableSafe.toReachable {s : ICFS} (h : ReachableSafe s) : Reachable s := by
  induction h with
  | init => exact Reachable.init
  | step hr hstep ih => exact Reachable.step ih hstep.toStep

theorem StepSafe.root_pres {s t : ICFS} (hInv : ICFSInv s) (hR : RootInv s) (h : StepSafe s t) :
    RootInv t := by
  cases h with
  | lookup parent name => exact hR.lookupOp_root parent name
  | forget ino hne => exact RootInv.remove_inode_root hInv hR hne
  | getattr ino => exact hR.getattrOp_root ino
  | mkdir parent name => exact hR.mkdirOp_root parent name
  | unlink parent name => exact hR.unlinkOp_root parent name
  | rmdir parent name => exact hR.rmdirOp_root parent name
  | read ino offset size => exact hR.readOp_root ino offset size
  | write ino offset data => exact hR.writeOp_root ino offset data
  | rename parent name newparent newname => exact hR.renameOp_root parent name newparent newname
  | readdir ino offset => exact hR.readdirOp_root ino offset
  | create parent name => exact hR.createOp_root parent name

theorem RootInv_new : RootInv ICFS.new :=
  ⟨rfl, rfl, List.not_mem_nil 1⟩

theorem ReachableSafe.rootInv {s : ICFS} (h : ReachableSafe s) : RootInv s := by
  induction h with
  | init => exact RootInv_new
  | step hr hstep ih => exact hstep.root_pres hr.toReachable.invariant ih

/-! ## Behaviour of the write loop -/

theorem ICFS.writeBytes_shift (data : List Nat) :
    ∀ (l : List Nat) (p x : Nat),
      ICFS.writeBytes (x :: l) (p + 1) data =
        Option.map (fun r => x :: r) (ICFS.writeBytes l p data) := by
  induction data with
  | nil => intro l p x; simp [ICFS.writeBytes]
  | cons b rest ih =>
    intro l p x
    simp only [ICFS.writeBytes, List.length_cons]
    by_cases h1 : p = l.length
    · rw [if_pos (by omega : p + 1 = l.length + 1), if_pos h1]
      rw [show (x :: l) ++ [b] = x :: (l ++ [b]) from rfl]
      exact ih (l ++ [b]) (p + 1) x
    · rw [if_neg (by omega : ¬ p + 1 = l.length + 1), if_neg h1]
      by_cases h2 : p < l.length
      · rw [if_pos (by omega : p + 1 < l.length + 1), if_pos h2]
        rw [show (x :: l).set (p + 1) b = x :: l.set p b from rfl]
        exact ih (l.set p b) (p + 1) x
      · rw [if_neg (by omega : ¬ p + 1 < l.length + 1), if_neg h2]
        rfl

theorem ICFS.writeBytes_zero (data : List Nat) :
    ∀ buffer : List Nat,
      ICFS.writeBytes buffer 0 data = some (data ++ buffer.drop data.length) := by
  induction data with
  | nil => intro buffer; simp [ICFS.writeBytes]
  | cons b rest ih =>
    intro buffer
    cases buffer with
    | nil =>
      simp only [ICFS.writeBytes, List.length_nil, if_pos rfl]
      rw [show ([] : List Nat) ++ [b] = b :: [] from rfl]
      rw [ICFS.writeBytes_shift, ih []]
      simp
    | cons x l =>
      have h0 : (0 : Nat) ≠ (x :: l).length := by simp
      have h0' : (0 : Nat) < (x :: l).length := by simp
      simp only [ICFS.writeBytes, if_neg h0, if_pos h0']
      rw [show (x :: l).set 0 b = b :: l from rfl]
      rw [ICFS.writeBytes_shift, ih l]
      simp

theorem ICFS.writeBytes_in_bounds (data : List Nat) :
    ∀ (position : Nat) (buffer : List Nat), position ≤ buffer.length →
      ICFS.writeBytes buffer position data =
        some (buffer.take position ++ data ++ buffer.drop (position + data.length)) := by
  intro position
  induction position with
  | zero =>
    intro buffer _
    rw [ICFS.writeBytes_zero]
    simp
  | succ p ih =>
    intro buffer hle
    cases buffer with
    | nil => simp at hle
    | cons x l =>
      rw [ICFS.writeBytes_shift, ih l (by simpa using hle)]
      simp only [Option.map_some']
      rw [List.take_succ_cons, Nat.add_right_comm p 1 data.length, List.drop_succ_cons]
      rfl

theorem ICFS.writeBytes_oob {buffer : List Nat} {position : Nat}
    (h : buffer.length < position) (b : Nat) (rest : List Nat) :
    ICFS.writeBytes buffer position (b :: rest) = none := by
  have h1 : ¬ position = buffer.length := by omega
  have h2 : ¬ position < buffer.length := by omega
  simp [ICFS.writeBytes, h1, h2]

theorem write_result_length (buffer data : List Nat) (off : Nat) (h : off ≤ buffer.length) :
    (buffer.take off ++ data ++ buffer.drop (off + data.length)).length =
      max buffer.length (off + data.length) := by
  simp only [List.length_append, List.length_take, List.length_drop]
  omega

/-! ## Resolution helpers -/

theorem FileStorage.lookup_child (fs : FileStorage) (path : FileStoragePath) (n : String)
    {d : List (String × FileStorageEntry)} (hd : fs.lookup path = some (.directory d)) :
    fs.lookup (path.with_pushed n) = KVList.get n d := by
  show fs.root.lookupPath (path ++ [n]) = KVList.get n d
  rw [FileStorageEntry.lookupPath_append]
  have hd' : fs.root.lookupPath path = some (.directory d) := hd
  rw [hd']
  show FileStorageEntry.lookupPath (.directory d) [n] = KVList.get n d
  simp only [FileStorageEntry.lookupPath]
  cases hg : KVList.get n d with
  | none => rfl
  | some e => rfl

theorem FileStorage.lookup_setAt_self {fs : FileStorage} {path : FileStoragePath}
    {e : FileStorageEntry} (h : fs.lookup path = some e) :
    fs.setAt path e = fs :=
  congrArg FileStorage.mk (FileStorageEntry.replacedAt_lookupPath_self h)

theorem FileStorage.lookup_setAt {fs : FileStorage} {path : FileStoragePath}
    {x : FileStorageEntry} (h : fs.lookup path = some x) (e : FileStorageEntry) :
    (fs.setAt path e).lookup path = some e :=
  FileStorageEntry.lookupPath_replacedAt h

theorem ICFS.create_inode_binds {s : ICFS} (h : ICFSInv s) (q : FileStoragePath) :
    KVList.get q (s.create_inode q).1.file_to_inode = some (s.create_inode q).2 ∧
    KVList.get (s.create_inode q).2 (s.create_inode q).1.inode_to_file = some q := by
  unfold ICFS.create_inode
  cases hg : KVList.get q s.file_to_inode with
  | some inode =>
    dsimp only
    exact ⟨hg, (h.maps_inv inode q).mpr hg⟩
  | none =>
    cases hu : s.unused_inodes with
    | nil =>
      dsimp only
      exact ⟨KVList.get_insert_self _ _ _, KVList.get_insert_self _ _ _⟩
    | cons u rest =>
      dsimp only
      exact ⟨KVList.get_insert_self _ _ _, KVList.get_insert_self _ _ _⟩

theorem ICFS.readdirLoop_spec (F : FileStorage) (path : FileStoragePath)
    (d : List (String × FileStorageEntry)) (hd : F.lookup path = some (.directory d)) :
    ∀ (names : List String), (∀ n ∈ names, n ∈ KVList.keys d) →
    ∀ (i : Nat) (s : ICFS), s.files = F →
    ∃ (s' : ICFS) (entries : List DirEntry),
      ICFS.readdirLoop path s names i = some (s', entries) ∧
      entries.map DirEntry.name = names ∧ s'.files = F := by
  intro names
  induction names with
  | nil =>
    intro _ i s hs
    exact ⟨s, [], rfl, rfl, hs⟩
  | cons n rest ih =>
    intro hmem i s hs
    have hn : n ∈ KVList.keys d := hmem n (List.mem_cons_self n rest)
    have hl : s.files.lookup (path.with_pushed n) = KVList.get n d := by
      rw [hs]
      exact FileStorage.lookup_child F path n hd
    obtain ⟨e, he⟩ := Option.isSome_iff_exists.mp (KVList.isSome_get_of_mem_keys hn)
    obtain ⟨s2, es2, hrun, hnames, hfiles⟩ :=
      ih (fun m hm => hmem m (List.mem_cons_of_mem n hm)) (i + 1)
        (s.create_inode (path.with_pushed n)).1
        (by rw [ICFS.create_inode_files]; exact hs)
    cases e with
    | file c =>
      refine ⟨s2, ⟨(s.create_inode (path.with_pushed n)).2, 2 + i,
          FileType.regularFile, n⟩ :: es2, ?_, ?_, hfiles⟩
      · simp only [ICFS.readdirLoop]
        rw [hl, he]
        dsimp only
        rw [hrun]
      · simp only [List.map_cons, hnames]
    | directory ch =>
      refine ⟨s2, ⟨(s.create_inode (path.with_pushed n)).2, 2 + i,
          FileType.directory, n⟩ :: es2, ?_, ?_, hfiles⟩
      · simp only [ICFS.readdirLoop]
        rw [hl, he]
        dsimp only
        rw [hrun]
      · simp only [List.map_cons, hnames]

/-! ## Concrete reachable states used by witnesses and counterexamples -/

/-- Root directory holding one empty file `a` (after one create-file). -/
def stateA : ICFS := (ICFS.new.createOp 1 "a").1

/-- Root directory holding empty files `a` and `b`. -/
def stateAB : ICFS := (stateA.createOp 1 "b").1

/-- Root directory holding one empty directory `d`. -/
def stateD : ICFS := (ICFS.new.mkdirOp 1 "d").1

/-- As `stateD`, with a file `f` created inside `d` (inode 3). -/
def stateDF : ICFS := (stateD.createOp 2 "f").1

/-- As `stateDF`, after `rmdir` of `d`: inodes 2 and 3 stay bound to
paths that no longer resolve. -/
def stateDangling : ICFS := (stateDF.rmdirOp 1 "d").1

theorem reach_stateA : Reachable stateA :=
  Reachable.step Reachable.init (Step.create ICFS.new 1 "a")

theorem reach_stateAB : Reachable stateAB :=
  Reachable.step reach_stateA (Step.create stateA 1 "b")

theorem reach_stateD : Reachable stateD :=
  Reachable.step Reachable.init (Step.mkdir ICFS.new 1 "d")

theorem reach_stateDF : Reachable stateDF :=
  Reachable.step reach_stateD (Step.create stateD 2 "f")

theorem reach_stateDangling : Reachable stateDangling :=
  Reachable.step reach_stateDF (Step.rmdir stateDF 1 "d")

/-! ## Claim theorems -/

/-- The part of the inode-table invariant named by the specification:
both directions hold the same pairs, reserved numbers are unbound, and
the number minted when the reuse set is empty is fresh. -/
def TableConsistent (s : ICFS) : Prop :=
  (∀ i p, KVList.get i s.inode_to_file = some p ↔
      KVList.get p s.file_to_inode = some i) ∧
  (∀ i ∈ s.unused_inodes, KVList.get i s.inode_to_file = none) ∧
  (s.unused_inodes = [] →
    KVList.get (s.inode_to_file.length + 1) s.inode_to_file = none)

theorem ICFSInv.tableConsistent {s : ICFS} (h : ICFSInv s) : TableConsistent s := by
  refine ⟨h.maps_inv, h.unused_unbound, ?_⟩
  intro hu
  by_contra hne
  have h1 := (h.range (s.inode_to_file.length + 1)).mp (Or.inl hne)
  rw [hu] at h1
  simp only [List.length_nil] at h1
  omega

/-- C1: in every reachable adapter state the two inode-table directions
are exact inverses, the reuse set is disjoint from the bound numbers,
`create_inode` and `remove_inode` preserve this (every protocol callback
is a reachability step, so it preserves it as well), and the number
minted by `create_inode` when the reuse set is empty
(`inode_to_file.len() + 1`) is never already bound. -/
theorem inode_table_bijective (s : ICFS) (h : Reachable s) :
    TableConsistent s ∧ (∀ p, TableConsistent (s.create_inode p).1) ∧
    (∀ i, TableConsistent (s.remove_inode i)) :=
  ⟨h.invariant.tableConsistent, fun p => (h.invariant.create_inode_pres p).tableConsistent,
    fun i => (h.invariant.remove_inode_pres i).tableConsistent⟩

theorem inode_table_bijective_witness :
    TableConsistent ICFS.new ∧ (∀ p, TableConsistent (ICFS.new.create_inode p).1) ∧
    (∀ i, TableConsistent (ICFS.new.remove_inode i)) :=
  inode_table_bijective ICFS.new Reachable.init

/-- C2: in every reachable state, a release-reference (forget) on a
bound inode `I` deletes the `(I, P)` pair from both directions, and in
any state whatsoever an operation resolves `I` only through the entry
currently bound to `I` (`get_entry` is exactly the store lookup of the
currently bound path), so once `I` is rebound to some `Q ≠ P` nothing
reachable through `I` refers to `P`. -/
theorem forget_clears_binding (s : ICFS) (h : Reachable s) (I : Nat) (P : FileStoragePath)
    (hb : KVList.get I s.inode_to_file = some P) :
    (KVList.get I (s.forgetOp I).inode_to_file = none ∧
     KVList.get P (s.forgetOp I).file_to_inode = none) ∧
    (∀ (t : ICFS) (Q : FileStoragePath), KVList.get I t.inode_to_file = some Q →
      t.get_entry I = t.files.lookup Q) := by
  have hInv := h.invariant
  constructor
  · unfold ICFS.forgetOp ICFS.remove_inode
    rw [hb]
    dsimp only
    exact ⟨KVList.get_remove_self hInv.i2f_nodup, KVList.get_remove_self hInv.f2i_nodup⟩
  · intro t Q hq
    unfold ICFS.get_entry
    rw [hq]

theorem forget_clears_binding_witness :
    KVList.get 1 (ICFS.new.forgetOp 1).inode_to_file = none ∧
    KVList.get ([] : FileStoragePath) (ICFS.new.forgetOp 1).file_to_inode = none :=
  (forget_clears_binding ICFS.new Reachable.init 1 [] rfl).1

/-- C3 counterexample: the claim quantifies over every sequence of
protocol callbacks, but the single callback forget(1) reaches a state in
which inode 1 is no longer bound to the root path (both directions are
cleared) and 1 sits in the reuse set. -/
theorem root_forget_unbinds_cex :
    Reachable (ICFS.new.forgetOp 1) ∧
    KVList.get 1 (ICFS.new.forgetOp 1).inode_to_file = none ∧
    KVList.get ([] : FileStoragePath) (ICFS.new.forgetOp 1).file_to_inode = none ∧
    (1 : Nat) ∈ (ICFS.new.forgetOp 1).unused_inodes :=
  ⟨Reachable.step Reachable.init (Step.forget ICFS.new 1), rfl, rfl, by decide⟩

/-- C3 amended: in every state reachable by callbacks that never pass
inode 1 to release-reference, the root path is bound to inode 1 in both
directions and 1 is never in the reuse set (the code has no special
case for inode 1, so a forget(1) callback does unbind the root). -/
theorem root_binding_stable (s : ICFS) (h : ReachableSafe s) :
    KVList.get 1 s.inode_to_file = some ([] : FileStoragePath) ∧
    KVList.get ([] : FileStoragePath) s.file_to_inode = some 1 ∧
    (1 : Nat) ∉ s.unused_inodes :=
  ⟨h.rootInv.bound_i, h.rootInv.bound_p, h.rootInv.not_unused⟩

theorem root_binding_stable_witness :
    KVList.get 1 ICFS.new.inode_to_file = some ([] : FileStoragePath) ∧
    KVList.get ([] : FileStoragePath) ICFS.new.file_to_inode = some 1 ∧
    (1 : Nat) ∉ ICFS.new.unused_inodes :=
  root_binding_stable ICFS.new ReachableSafe.init

/-- C4: rename evaluated at a reachable state whose root directory holds
files `a` and `b`.  Renaming `a` onto the occupied name `b` replies
already-exists, but the child `a` — removed from the source directory
before the collision check, with no rollback (the source's own
`//todo: rollback file on error`) — is gone from the tree, and `b` keeps
its old content: the tree is not unchanged on this failure. -/
theorem rename_losing_child_bug :
    Reachable stateAB ∧
    stateAB.files.lookup ["a"] = some (.file []) ∧
    (stateAB.renameOp 1 "a" 1 "b").2 = some (.error .EEXIST) ∧
    (stateAB.renameOp 1 "a" 1 "b").1.files.lookup ["a"] = none ∧
    (stateAB.renameOp 1 "a" 1 "b").1.files.lookup ["b"] = some (.file []) :=
  ⟨reach_stateAB, rfl, rfl, rfl, rfl⟩

/-- C9: removing a name that is absent from a (bound, resolving) parent
directory replies success and leaves the state completely unchanged, for
both the unlink and the rmdir callback, hence also on any repetition. -/
theorem remove_absent_noop (s : ICFS) (parent : Nat) (name : String)
    (p : FileStoragePath) (d : List (String × FileStorageEntry))
    (h1 : KVList.get parent s.inode_to_file = some p)
    (h2 : s.files.lookup p = some (.directory d))
    (h3 : KVList.containsKey name d = false) :
    s.unlinkOp parent name = (s, some (.ok ())) ∧
    s.rmdirOp parent name = (s, some (.ok ())) ∧
    ((s.unlinkOp parent name).1).unlinkOp parent name = (s, some (.ok ())) ∧
    ((s.rmdirOp parent name).1).rmdirOp parent name = (s, some (.ok ())) := by
  have hrm : KVList.remove name d = d :=
    KVList.remove_not_mem (KVList.get_of_containsKey_false h3)
  have hset : s.files.setAt p (.directory d) = s.files :=
    FileStorage.lookup_setAt_self h2
  have hu : s.unlinkOp parent name = (s, some (.ok ())) := by
    unfold ICFS.unlinkOp
    rw [h1]
    dsimp only
    rw [h2]
    dsimp only
    rw [hrm, hset]
  have hr : s.rmdirOp parent name = (s, some (.ok ())) := by
    unfold ICFS.rmdirOp
    rw [h1]
    dsimp only
    rw [h2]
    dsimp only
    rw [hrm, hset]
  refine ⟨hu, hr, ?_, ?_⟩
  · rw [hu]
    exact hu
  · rw [hr]
    exact hr

theorem remove_absent_noop_witness :
    stateA.unlinkOp 1 "zzz" = (stateA, some (.ok ())) ∧
    stateA.rmdirOp 1 "zzz" = (stateA, some (.ok ())) ∧
    ((stateA.unlinkOp 1 "zzz").1).unlinkOp 1 "zzz" = (stateA, some (.ok ())) ∧
    ((stateA.rmdirOp 1 "zzz").1).rmdirOp 1 "zzz" = (stateA, some (.ok ())) :=
  remove_absent_noop stateA 1 "zzz" [] [("a", .file [])] rfl rfl rfl

/-- C10 counterexample: a reachable state (mkdir d; create d/f; rmdir d)
in which inode 2 is still bound to the path d but that path no longer
resolves in the store; get-attributes on inode 2 replies the symbolic
error no-such-entry — the process is not aborted (no panic branch is
taken). -/
theorem dangling_inode_getattr_cex :
    Reachable stateDangling ∧
    KVList.get 2 stateDangling.inode_to_file = some ["d"] ∧
    stateDangling.files.lookup ["d"] = none ∧
    stateDangling.getattrOp 2 = (stateDangling, some (.error .ENOENT)) :=
  ⟨reach_stateDangling, rfl, rfl, rfl⟩

/-- C10 amended: when an inode is bound in the table but its path no
longer resolves in the store, every (inode-addressed) operation replies
no-such-entry and leaves the state unchanged, instead of aborting: the
`get_entry` guard turns the dangling binding into an expected error. -/
theorem dangling_inode_enoent (s : ICFS) (ino : Nat) (p : FileStoragePath)
    (name newname : String) (newparent off size : Nat) (data : List Nat)
    (h1 : KVList.get ino s.inode_to_file = some p)
    (h2 : s.files.lookup p = none) :
    s.getattrOp ino = (s, some (.error .ENOENT)) ∧
    s.lookupOp ino name = (s, some (.error .ENOENT)) ∧
    s.mkdirOp ino name = (s, some (.error .ENOENT)) ∧
    s.unlinkOp ino name = (s, some (.error .ENOENT)) ∧
    s.rmdirOp ino name = (s, some (.error .ENOENT)) ∧
    s.readOp ino off size = (s, some (.error .ENOENT)) ∧
    s.writeOp ino off data = (s, some (.error .ENOENT)) ∧
    s.renameOp ino name newparent newname = (s, some (.error .ENOENT)) ∧
    s.readdirOp ino 0 = (s, some (.error .ENOENT)) ∧
    s.createOp ino name = (s, some (.error .ENOENT)) := by
  have hge : s.get_entry ino = none := by
    unfold ICFS.get_entry
    rw [h1]
    exact h2
  refine ⟨?_, ?_, ?_, ?_, ?_, ?_, ?_, ?_, ?_, ?_⟩
  · unfold ICFS.getattrOp
    rw [hge]
  · unfold ICFS.lookupOp
    rw [hge]
  · unfold ICFS.mkdirOp
    rw [h1]
    dsimp only
    rw [h2]
  · unfold ICFS.unlinkOp
    rw [h1]
    dsimp only
    rw [h2]
  · unfold ICFS.rmdirOp
    rw [h1]
    dsimp only
    rw [h2]
  · unfold ICFS.readOp
    rw [hge]
  · unfold ICFS.writeOp
    rw [h1]
    dsimp only
    rw [h2]
  · unfold ICFS.renameOp
    rw [h1]
    dsimp only
    rw [h2]
  · unfold ICFS.readdirOp
    rw [if_neg (by simp)]
    rw [hge]
  · unfold ICFS.createOp
    rw [h1]
    dsimp only
    rw [h2]

theorem dangling_inode_enoent_witness :
    stateDangling.getattrOp 2 = (stateDangling, some (.error .ENOENT)) ∧
    stateDangling.lookupOp 2 "f" = (stateDangling, some (.error .ENOENT)) ∧
    stateDangling.mkdirOp 2 "f" = (stateDangling, some (.error .ENOENT)) ∧
    stateDangling.unlinkOp 2 "f" = (stateDangling, some (.error .ENOENT)) ∧
    stateDangling.rmdirOp 2 "f" = (stateDangling, some (.error .ENOENT)) ∧
    stateDangling.readOp 2 0 4 = (stateDangling, some (.error .ENOENT)) ∧
    stateDangling.writeOp 2 0 [7] = (stateDangling, some (.error .ENOENT)) ∧
    stateDangling.renameOp 2 "f" 1 "g" = (stateDangling, some (.error .ENOENT)) ∧
    stateDangling.readdirOp 2 0 = (stateDangling, some (.error .ENOENT)) ∧
    stateDangling.createOp 2 "f" = (stateDangling, some (.error .ENOENT)) :=
  dangling_inode_enoent stateDangling 2 ["d"] "f" "g" 1 0 4 [7] rfl rfl

/-- C7: a read of (offset, size) from a bound, resolving File with
content `buffer` replies exactly
`buffer[offset.min(len) .. (offset+size).min(len)]` — the requested
range clipped at the end of content — leaving the state unchanged, and
an offset at or past the content length yields the empty byte sequence
with success, never an error. -/
theorem read_spec (s : ICFS) (ino : Nat) (p : FileStoragePath) (buffer : List Nat)
    (off size : Nat) (h1 : KVList.get ino s.inode_to_file = some p)
    (h2 : s.files.lookup p = some (.file buffer)) :
    s.readOp ino off size =
      (s, some (.ok ((buffer.take (min (off + size) buffer.length)).drop
        (min off buffer.length)))) ∧
    (buffer.length ≤ off → s.readOp ino off size = (s, some (.ok []))) := by
  have hge : s.get_entry ino = some (.file buffer) := by
    unfold ICFS.get_entry
    rw [h1]
    exact h2
  have hmain : s.readOp ino off size =
      (s, some (.ok ((buffer.take (min (off + size) buffer.length)).drop
        (min off buffer.length)))) := by
    unfold ICFS.readOp
    rw [hge]
  refine ⟨hmain, ?_⟩
  intro hle
  rw [hmain]
  have hm1 : min off buffer.length = buffer.length := min_eq_right hle
  have hm2 : (buffer.take (min (off + size) buffer.length)).length ≤ buffer.length := by
    simp only [List.length_take]
    omega
  rw [hm1, List.drop_eq_nil_of_le hm2]

theorem read_spec_witness :
    stateA.readOp 2 7 5 = (stateA, some (.ok (([] : List Nat).take (min (7 + 5) 0) |>.drop
      (min 7 0)))) ∧
    (([] : List Nat).length ≤ 7 → stateA.readOp 2 7 5 = (stateA, some (.ok []))) :=
  read_spec stateA 2 ["a"] [] 7 5 rfl rfl

/-- C6 counterexample: a write of the empty byte sequence at offset 5 to
a bound File of length 0 — an offset strictly beyond the content length
— is not treated as fatal: the loop body never runs, the reply is a
successful count of 0 and the state is unchanged. -/
theorem write_empty_oob_cex :
    Reachable stateA ∧
    stateA.files.lookup ["a"] = some (.file []) ∧
    stateA.writeOp 2 5 [] = (stateA, some (.ok 0)) :=
  ⟨reach_stateA, rfl, rfl⟩

/-- C6 amended: writing `data` at offset `off` to a bound File of
content `buffer`: when `off ≤ |buffer|` the new content is the old one
with positions `off..off+|data|` replaced by `data` (appending at the
then-current length), of length `max |buffer| (off+|data|)`, the reply
is the count `|data|` (as the 32-bit value `|data| % 2^32`) and the
panic branch is not taken; when `off > |buffer|` *and `data` is
nonempty* the out-of-bounds panic is reached (the empty write replies 0
instead, see the counterexample). -/
theorem write_spec (s : ICFS) (ino : Nat) (p : FileStoragePath) (buffer data : List Nat)
    (off : Nat) (h1 : KVList.get ino s.inode_to_file = some p)
    (h2 : s.files.lookup p = some (.file buffer)) :
    (off ≤ buffer.length →
      s.writeOp ino off data =
        ({ s with files := s.files.setAt p (.file (buffer.take off ++ data ++ buffer.drop (off + data.length))) },
          some (.ok (data.length % 2 ^ 32))) ∧
      (buffer.take off ++ data ++ buffer.drop (off + data.length)).length =
        max buffer.length (off + data.length) ∧
      (s.writeOp ino off data).1.files.lookup p =
        some (.file (buffer.take off ++ data ++ buffer.drop (off + data.length)))) ∧
    (buffer.length < off → data ≠ [] → s.writeOp ino off data = (s, none)) := by
  constructor
  · intro hle
    have hbytes := ICFS.writeBytes_in_bounds data off buffer hle
    have hmain : s.writeOp ino off data =
        ({ s with files := s.files.setAt p (.file (buffer.take off ++ data ++ buffer.drop (off + data.length))) },
          some (.ok (data.length % 2 ^ 32))) := by
      unfold ICFS.writeOp
      rw [h1]
      dsimp only
      rw [h2]
      dsimp only
      rw [hbytes]
    refine ⟨hmain, write_result_length buffer data off hle, ?_⟩
    rw [hmain]
    exact FileStorage.lookup_setAt h2 _
  · intro hgt hne
    cases data with
    | nil => exact absurd rfl hne
    | cons b rest =>
      unfold ICFS.writeOp
      rw [h1]
      dsimp only
      rw [h2]
      dsimp only
      rw [ICFS.writeBytes_oob hgt]

theorem write_spec_witness :
    ((0 : Nat) ≤ ([] : List Nat).length →
      stateA.writeOp 2 0 [7, 8] =
        ({ stateA with files := stateA.files.setAt ["a"] (.file (([] : List Nat).take 0 ++ [7, 8] ++ ([] : List Nat).drop (0 + 2))) },
          some (.ok (([7, 8] : List Nat).length % 2 ^ 32))) ∧
      (([] : List Nat).take 0 ++ [7, 8] ++ ([] : List Nat).drop (0 + 2)).length =
        max ([] : List Nat).length (0 + 2) ∧
      (stateA.writeOp 2 0 [7, 8]).1.files.lookup ["a"] =
        some (.file (([] : List Nat).take 0 ++ [7, 8] ++ ([] : List Nat).drop (0 + 2)))) ∧
    (([] : List Nat).length < 0 → ([7, 8] : List Nat) ≠ [] →
      stateA.writeOp 2 0 [7, 8] = (stateA, none)) :=
  write_spec stateA 2 ["a"] [] [7, 8] 0 rfl rfl

/-- C5 counterexample: enumerate-children with positive offset 1 on the
root directory of a reachable state that holds two children replies
success with an *empty* listing — the code returns early on every
non-zero offset — whereas the claim requires the remaining entries
(`..` and both children) starting at offset 1. -/
theorem readdir_positive_offset_cex :
    Reachable stateAB ∧
    stateAB.files.lookup [] =
      some (.directory [("a", .file []), ("b", .file [])]) ∧
    stateAB.readdirOp 1 1 = (stateAB, some (.ok [])) :=
  ⟨reach_stateAB, rfl, rfl⟩

/-- C5 amended: on a bound inode whose path resolves to a directory,
enumerate-children at offset 0 produces `.` and `..` as the first two
entries followed by exactly the set of child names present in the
directory, each exactly once — stated as a duplicate-free permutation
of the stored keys, since the iteration order of the source's
`std::collections::HashMap` is unspecified and no particular
enumeration order (insertion or otherwise) is guaranteed by the
program; any *non-zero* offset replies success with an empty listing
regardless of content (the code treats every continuation offset as
the end of the stream). -/
theorem readdir_spec (s : ICFS) (h : Reachable s) (ino : Nat) (p : FileStoragePath)
    (d : List (String × FileStorageEntry))
    (hino : KVList.get ino s.inode_to_file = some p)
    (hdir : s.files.lookup p = some (.directory d)) :
    (∃ (s' : ICFS) (parentIno : Nat) (rest : List DirEntry),
      s.readdirOp ino 0 = (s', some (.ok (⟨ino, 0, FileType.directory, "."⟩ ::
        ⟨parentIno, 1, FileType.directory, ".."⟩ :: rest))) ∧
      (rest.map DirEntry.name).Perm (KVList.keys d) ∧
      (KVList.keys d).Nodup) ∧
    (∀ off : Nat, off ≠ 0 → s.readdirOp ino off = (s, some (.ok []))) := by
  have hge : s.get_entry ino = some (.directory d) := by
    unfold ICFS.get_entry
    rw [hino]
    exact hdir
  constructor
  · obtain ⟨s2, entries, hrun, hnames, hfiles⟩ :=
      ICFS.readdirLoop_spec s.files p d hdir (KVList.keys d) (fun n hn => hn) 0
        (s.create_inode p.with_popped).1 (ICFS.create_inode_files s p.with_popped)
    refine ⟨s2, (s.create_inode p.with_popped).2, entries, ?_, by rw [hnames], ?_⟩
    · unfold ICFS.readdirOp
      rw [if_neg (by simp)]
      rw [hge]
      dsimp only
      rw [hino]
      dsimp only
      rw [hrun]
    · have hwfd : EntryWF (.directory d) :=
        FileStorageEntry.wf_lookupPath h.invariant.tree_wf hdir
      cases hwfd with
      | directory _ hkeys _ => exact hkeys
  · intro off hoff
    unfold ICFS.readdirOp
    rw [if_pos hoff]

theorem readdir_spec_witness :
    (∃ (s' : ICFS) (parentIno : Nat) (rest : List DirEntry),
      stateAB.readdirOp 1 0 = (s', some (.ok (⟨1, 0, FileType.directory, "."⟩ ::
        ⟨parentIno, 1, FileType.directory, ".."⟩ :: rest))) ∧
      (rest.map DirEntry.name).Perm
        (KVList.keys [("a", FileStorageEntry.file []), ("b", FileStorageEntry.file [])]) ∧
      (KVList.keys [("a", FileStorageEntry.file []), ("b", FileStorageEntry.file [])]).Nodup) ∧
    (∀ off : Nat, off ≠ 0 → stateAB.readdirOp 1 off = (stateAB, some (.ok []))) :=
  readdir_spec stateAB reach_stateAB 1 []
    [("a", FileStorageEntry.file []), ("b", FileStorageEntry.file [])] rfl rfl

/-- Evaluation of `createOp` once the parent inode is known to be bound
to a directory: the remaining body, with the parent resolution already
discharged. -/
theorem ICFS.createOp_run (s : ICFS) (parent : Nat) (name : String)
    (p : FileStoragePath) (d : List (String × FileStorageEntry))
    (h1 : KVList.get parent s.inode_to_file = some p)
    (h2 : s.files.lookup p = some (.directory d)) :
    s.createOp parent name =
      (let s1 : ICFS := { s with files := s.files.setAt p (.directory (if KVList.containsKey name d then d else KVList.insert name (.file []) d)) }
       let res := s1.create_inode (p.with_pushed name)
       match res.1.get_inode_attrs res.2 with
       | none => (res.1, none)
       | some attrs => (res.1, some (.ok attrs))) := by
  unfold ICFS.createOp
  rw [h1]
  dsimp only
  rw [h2]

/-- The reply-construction tail shared by the entry-creating callbacks:
binding a path whose entry exists in the store yields a table binding in
both directions and attributes carrying the bound inode number. -/
theorem ICFS.create_inode_attrs {s1 : ICFS} (hInv1 : ICFSInv s1) {q : FileStoragePath}
    {e : FileStorageEntry} (hchild : s1.files.lookup q = some e) :
    ∃ a, (s1.create_inode q).1.get_inode_attrs (s1.create_inode q).2 = some a ∧
      a.ino = (s1.create_inode q).2 ∧
      KVList.get q (s1.create_inode q).1.file_to_inode = some (s1.create_inode q).2 ∧
      KVList.get (s1.create_inode q).2 (s1.create_inode q).1.inode_to_file = some q := by
  have hbind := ICFS.create_inode_binds hInv1 q
  have hge2 : (s1.create_inode q).1.get_entry (s1.create_inode q).2 = some e := by
    unfold ICFS.get_entry
    rw [hbind.2]
    dsimp only
    rw [ICFS.create_inode_files]
    exact hchild
  unfold ICFS.get_inode_attrs
  rw [hge2]
  exact ⟨_, rfl, rfl, hbind.1, hbind.2⟩

/-- C8: create-file on a parent inode bound to a directory: when the
name is absent an empty-content File child is inserted at the child
path; when the name is already present (as any node) the tree is left
completely unchanged; in both cases the child path ends up bound to an
inode in both table directions and the success reply carries that
inode's attributes. -/
theorem create_file_spec (s : ICFS) (h : Reachable s) (parent : Nat) (name : String)
    (p : FileStoragePath) (d : List (String × FileStorageEntry))
    (h1 : KVList.get parent s.inode_to_file = some p)
    (h2 : s.files.lookup p = some (.directory d)) :
    (KVList.containsKey name d = true → (s.createOp parent name).1.files = s.files) ∧
    (KVList.containsKey name d = false →
      (s.createOp parent name).1.files =
        s.files.setAt p (.directory (KVList.insert name (.file []) d)) ∧
      (s.createOp parent name).1.files.lookup (p.with_pushed name) = some (.file [])) ∧
    (∃ (ino : Nat) (attrs : FileAttr),
      KVList.get (p.with_pushed name) (s.createOp parent name).1.file_to_inode = some ino ∧
      KVList.get ino (s.createOp parent name).1.inode_to_file = some (p.with_pushed name) ∧
      (s.createOp parent name).2 = some (.ok attrs) ∧ attrs.ino = ino) := by
  have hInv := h.invariant
  have hwfdir : EntryWF (.directory d) := FileStorageEntry.wf_lookupPath hInv.tree_wf h2
  have hwfD : EntryWF (.directory
      (if KVList.containsKey name d then d else KVList.insert name (.file []) d)) := by
    by_cases hc : KVList.containsKey name d = true
    · rw [if_pos hc]
      exact hwfdir
    · rw [if_neg hc]
      exact EntryWF.insert_child hwfdir (EntryWF.file _)
        (KVList.get_of_containsKey_false (Bool.eq_false_iff.mpr hc))
  have hInv1 : ICFSInv { s with files := s.files.setAt p (.directory (if KVList.containsKey name d then d else KVList.insert name (.file []) d)) } :=
    hInv.set_files_pres hwfD
  have hlookup1 : (s.files.setAt p (.directory (if KVList.containsKey name d then d else KVList.insert name (.file []) d))).lookup p =
      some (.directory (if KVList.containsKey name d then d else KVList.insert name (.file []) d)) :=
    FileStorage.lookup_setAt h2 _
  have hchild0 : (s.files.setAt p (.directory (if KVList.containsKey name d then d else KVList.insert name (.file []) d))).lookup (p.with_pushed name) =
      KVList.get name (if KVList.containsKey name d then d else KVList.insert name (.file []) d) :=
    FileStorage.lookup_child _ p name hlookup1
  have hchildE : ∃ e, KVList.get name
      (if KVList.containsKey name d then d else KVList.insert name (.file []) d) = some e ∧
      (KVList.containsKey name d = false → e = .file []) := by
    by_cases hc : KVList.containsKey name d = true
    · obtain ⟨v, hv⟩ := KVList.get_of_containsKey_true hc
      rw [if_pos hc]
      refine ⟨v, hv, ?_⟩
      intro hf
      rw [hc] at hf
      exact Bool.noConfusion hf
    · rw [if_neg hc]
      exact ⟨.file [], KVList.get_insert_self _ _ _, fun _ => rfl⟩
  obtain ⟨e, he, hef⟩ := hchildE
  have hchild : ({ s with files := s.files.setAt p (.directory (if KVList.containsKey name d then d else KVList.insert name (.file []) d)) } : ICFS).files.lookup (p.with_pushed name) = some e := by
    dsimp only
    rw [hchild0]
    exact he
  obtain ⟨a, ha1, ha2, ha3, ha4⟩ := ICFS.create_inode_attrs hInv1 hchild
  have hfinal : s.createOp parent name =
      (({ s with files := s.files.setAt p (.directory (if KVList.containsKey name d then d else KVList.insert name (.file []) d)) } : ICFS).create_inode (p.with_pushed name) |>.1,
        some (.ok a)) := by
    rw [ICFS.createOp_run s parent name p d h1 h2]
    dsimp only
    rw [ha1]
  refine ⟨?_, ?_, ?_⟩
  · intro hc
    rw [hfinal]
    dsimp only
    rw [ICFS.create_inode_files]
    dsimp only
    rw [if_pos hc]
    exact FileStorage.lookup_setAt_self h2
  · intro hc
    have hcne : ¬ KVList.containsKey name d = true := by
      rw [hc]
      exact Bool.false_ne_true
    constructor
    · rw [hfinal]
      dsimp only
      rw [ICFS.create_inode_files]
      dsimp only
      rw [if_neg hcne]
    · rw [hfinal]
      dsimp only
      rw [ICFS.create_inode_files]
      rw [hchild]
      rw [hef hc]
  · refine ⟨_, a, ?_, ?_, ?_, ha2⟩
    · rw [hfinal]
      exact ha3
    · rw [hfinal]
      exact ha4
    · rw [hfinal]

theorem create_file_spec_witness :
    (KVList.containsKey "c" [("a", FileStorageEntry.file [])] = true →
      (stateA.createOp 1 "c").1.files = stateA.files) ∧
    (KVList.containsKey "c" [("a", FileStorageEntry.file [])] = false →
      (stateA.createOp 1 "c").1.files =
        stateA.files.setAt [] (.directory (KVList.insert "c" (.file []) [("a", FileStorageEntry.file [])])) ∧
      (stateA.createOp 1 "c").1.files.lookup (FileStoragePath.with_pushed [] "c") =
        some (.file [])) ∧
    (∃ (ino : Nat) (attrs : FileAttr),
      KVList.get (FileStoragePath.with_pushed [] "c")
        (stateA.createOp 1 "c").1.file_to_inode = some ino ∧
      KVList.get ino (stateA.createOp 1 "c").1.inode_to_file =
        some (FileStoragePath.with_pushed [] "c") ∧
      (stateA.createOp 1 "c").2 = some (.ok attrs) ∧ attrs.ino = ino) :=
  create_file_spec stateA reach_stateA 1 "c" [] [("a", FileStorageEntry.file [])] rfl rfl
